import Mathlib

/-!
# kubectl-ilogs: pod discovery and selection

A shallow embedding of `pkg/cmd/ilogs.go` (`Complete`, `filterPods`, `selectPod`) together with
the two library routines whose behaviour the results depend on: `strings.Contains` and
`sort.Slice` (the pattern-defeating quicksort of the Go standard library, Go 1.19 and later).

Conventions of the embedding:
* a Go `error` is its message, and a function returning `(T, error)` returns `Except String T`;
* a slice is a `List`; a `time.Time` is an instant on the integer time line, so
  `t.After(u)` is `u < t`;
* a Go string is a `String`; pod names and filter terms are compared character by character;
* the cluster client, the kubeconfig loader and the interactive prompt are collaborators,
  passed as functions.
-/

namespace Ilogs

/-! ## Data model -/

/-- The fields of `corev1.Pod` the command reads. -/
structure Pod where
  Name : String
  Namespace : String
  CreationTimestamp : Int
  deriving DecidableEq, Repr, Inhabited

/-- Go `t.After(u)` on `time.Time`: reports whether the instant `t` is after `u`. -/
def Time_After (t u : Int) : Bool := decide (u < t)

/-! ## `strings.Contains` -/

/-- Whether the characters `p` start the characters `s` (Go `strings.HasPrefix`). -/
def startsWith : List Char → List Char → Bool
  | _, [] => true
  | [], _ :: _ => false
  | c :: s, x :: p => c == x && startsWith s p

/-- Whether `sub` occurs in `s` at some offset. -/
def containsAt : List Char → List Char → Bool
  | [], sub => startsWith [] sub
  | c :: s, sub => startsWith (c :: s) sub || containsAt s sub

/-- Go `strings.Contains(s, substr)`: reports whether `substr` is within `s`. -/
def strings_Contains (s substr : String) : Bool := containsAt s.data substr.data

/-! ## `sort.Slice` -/

section GoSort

variable {α : Type} [Inhabited α]

/-- The element `data[i]` of a slice (an index out of range reads the zero value; the sort
never makes such an access). -/
def At (data : List α) (i : Nat) : α := data.getD i default

/-- The `data.Swap(i, j)` of `lessSwap`: exchange the elements at indices `i` and `j`. -/
def Swap (data : List α) (i j : Nat) : List α :=
  (data.set i (At data j)).set j (At data i)

/-- The inner loop of `insertionSort_func`:
`for j := i; j > a && data.Less(j, j-1); j-- { data.Swap(j, j-1) }`. -/
def insertionSort_inner (less : α → α → Bool) (a : Nat) : Nat → (List α) → (List α)
  | 0, data => data
  | j + 1, data =>
    if j + 1 > a && less (At data (j + 1)) (At data j) then
      insertionSort_inner less a j (Swap data (j + 1) j)
    else data

/-- The outer loop of `insertionSort_func`: `for i := a + 1; i < b; i++`; the first
argument counts the iterations that remain. -/
def insertionSort_outer (less : α → α → Bool) (a b : Nat) : Nat → Nat → (List α) → (List α)
  | 0, _, data => data
  | fuel + 1, i, data =>
    if i < b then
      insertionSort_outer less a b fuel (i + 1) (insertionSort_inner less a i data)
    else data

/-- Go `insertionSort_func(data, a, b)`: sorts `data[a:b]` using insertion sort. -/
def insertionSort_func (less : α → α → Bool) (data : List α) (a b : Nat) : List α :=
  insertionSort_outer less a b (b - (a + 1)) (a + 1) data

/-- The loop of `siftDown_func`, started at `root`. -/
def siftDown_loop (less : α → α → Bool) (hi first : Nat) : Nat → (List α) → Nat → (List α)
  | 0, data, _ => data
  | fuel + 1, data, root =>
    let child := 2 * root + 1
    if child ≥ hi then data
    else
      let child := if child + 1 < hi && less (At data (first + child)) (At data (first + child + 1))
        then child + 1 else child
      if !less (At data (first + root)) (At data (first + child)) then data
      else siftDown_loop less hi first fuel (Swap data (first + root) (first + child)) child

/-- Go `siftDown_func(data, lo, hi, first)`: implements the heap property on `data[lo:hi]`. -/
def siftDown_func (less : α → α → Bool) (data : List α) (lo hi first : Nat) : List α :=
  siftDown_loop less hi first hi data lo

/-- First loop of `heapSort_func`: `for i := (hi - 1) / 2; i >= 0; i--`; the counter is `i + 1`. -/
def heapSort_build (less : α → α → Bool) (hi first : Nat) : Nat → (List α) → (List α)
  | 0, data => data
  | i + 1, data => heapSort_build less hi first i (siftDown_func less data i hi first)

/-- Second loop of `heapSort_func`: `for i := hi - 1; i >= 0; i--`; the counter is `i + 1`. -/
def heapSort_pop (less : α → α → Bool) (lo first : Nat) : Nat → (List α) → (List α)
  | 0, data => data
  | i + 1, data =>
    heapSort_pop less lo first i (siftDown_func less (Swap data first (first + i)) lo i first)

/-- Go `heapSort_func(data, a, b)`. -/
def heapSort_func (less : α → α → Bool) (data : List α) (a b : Nat) : List α :=
  let first := a
  let lo := 0
  let hi := b - a
  heapSort_pop less lo first hi (heapSort_build less hi first ((hi - 1) / 2 + 1) data)

/-- The scan `for i <= j && data.Less(i, a) { i++ }` of `partition_func`. -/
def partition_up (less : α → α → Bool) (data : List α) (a j : Nat) : Nat → Nat → Nat
  | 0, i => i
  | fuel + 1, i =>
    if i ≤ j && less (At data i) (At data a) then partition_up less data a j fuel (i + 1) else i

/-- The scan `for i <= j && !data.Less(j, a) { j-- }` of `partition_func`. -/
def partition_down (less : α → α → Bool) (data : List α) (a i : Nat) : Nat → Nat
  | 0 => 0
  | j + 1 =>
    if i ≤ j + 1 && !less (At data (j + 1)) (At data a) then partition_down less data a i j else j + 1

/-- The `for { ... }` loop of `partition_func`; returns the data and the final `j`. -/
def partition_loop (less : α → α → Bool) (a : Nat) :
    Nat → (List α) → Nat → Nat → (List α) × Nat
  | 0, data, _, j => (data, j)
  | fuel + 1, data, i, j =>
    let i := partition_up less data a j (j + 1 - i) i
    let j := partition_down less data a i j
    if i > j then (data, j)
    else partition_loop less a fuel (Swap data i j) (i + 1) (j - 1)

/-- Go `partition_func(data, a, b, pivot)`: one quicksort partition; returns the data,
`newpivot` and `alreadyPartitioned`. -/
def partition_func (less : α → α → Bool) (data : List α) (a b pivot : Nat) :
    (List α) × Nat × Bool :=
  let data := Swap data a pivot
  let i := a + 1
  let j := b - 1
  let i := partition_up less data a j (j + 1 - i) i
  let j := partition_down less data a i j
  if i > j then (Swap data j a, j, true)
  else
    let r := partition_loop less a (b - a) (Swap data i j) (i + 1) (j - 1)
    (Swap r.1 r.2 a, r.2, false)

/-- The scan `for i <= j && !data.Less(a, i) { i++ }` of `partitionEqual_func`. -/
def partitionEqual_up (less : α → α → Bool) (data : List α) (a j : Nat) : Nat → Nat → Nat
  | 0, i => i
  | fuel + 1, i =>
    if i ≤ j && !less (At data a) (At data i) then partitionEqual_up less data a j fuel (i + 1) else i

/-- The scan `for i <= j && data.Less(a, j) { j-- }` of `partitionEqual_func`. -/
def partitionEqual_down (less : α → α → Bool) (data : List α) (a i : Nat) : Nat → Nat
  | 0 => 0
  | j + 1 =>
    if i ≤ j + 1 && less (At data a) (At data (j + 1)) then partitionEqual_down less data a i j
    else j + 1

/-- The `for { ... }` loop of `partitionEqual_func`; returns the data and the final `i`. -/
def partitionEqual_loop (less : α → α → Bool) (a : Nat) :
    Nat → (List α) → Nat → Nat → (List α) × Nat
  | 0, data, i, _ => (data, i)
  | fuel + 1, data, i, j =>
    let i := partitionEqual_up less data a j (j + 1 - i) i
    let j := partitionEqual_down less data a i j
    if i > j then (data, i)
    else partitionEqual_loop less a fuel (Swap data i j) (i + 1) (j - 1)

/-- Go `partitionEqual_func(data, a, b, pivot)`: partitions `data[a:b]` into elements equal to
`data[pivot]` followed by elements greater than `data[pivot]`. -/
def partitionEqual_func (less : α → α → Bool) (data : List α) (a b pivot : Nat) :
    (List α) × Nat :=
  partitionEqual_loop less a (b - a) (Swap data a pivot) (a + 1) (b - 1)

/-- The shift `for j := i - 1; j >= 1; j-- { if !data.Less(j, j-1) { break }; data.Swap(j, j-1) }`
of `partialInsertionSort_func`. -/
def shiftLeft_loop (less : α → α → Bool) : Nat → (List α) → (List α)
  | 0, data => data
  | j + 1, data =>
    if !less (At data (j + 1)) (At data j) then data
    else shiftLeft_loop less j (Swap data (j + 1) j)

/-- The shift `for j := i + 1; j < b; j++ { if !data.Less(j, j-1) { break }; data.Swap(j, j-1) }`
of `partialInsertionSort_func`. -/
def shiftRight_loop (less : α → α → Bool) (b : Nat) : Nat → (List α) → Nat → (List α)
  | 0, data, _ => data
  | fuel + 1, data, j =>
    if j < b then
      if !less (At data j) (At data (j - 1)) then data
      else shiftRight_loop less b fuel (Swap data j (j - 1)) (j + 1)
    else data

/-- The scan `for i < b && !data.Less(i, i-1) { i++ }` of `partialInsertionSort_func`. -/
def sortedRun (less : α → α → Bool) (data : List α) (b : Nat) : Nat → Nat → Nat
  | 0, i => i
  | fuel + 1, i =>
    if i < b && !less (At data i) (At data (i - 1)) then sortedRun less data b fuel (i + 1) else i

/-- The `for j := 0; j < maxSteps; j++` loop of `partialInsertionSort_func`; the first
argument counts the steps that remain. -/
def partialInsertionSort_loop (less : α → α → Bool) (a b : Nat) :
    Nat → (List α) → Nat → (List α) × Bool
  | 0, data, _ => (data, false)
  | steps + 1, data, i =>
    let i := sortedRun less data b (b - i) i
    if i = b then (data, true)
    else if b - a < 50 then (data, false)
    else
      let data := Swap data i (i - 1)
      let data := if i - a ≥ 2 then shiftLeft_loop less (i - 1) data else data
      let data := if b - i ≥ 2 then shiftRight_loop less b (b - (i + 1)) data (i + 1) else data
      partialInsertionSort_loop less a b steps data i

/-- Go `partialInsertionSort_func(data, a, b)`: partially sorts a slice, returns true if the
slice is sorted at the end (`maxSteps = 5`, `shortestShifting = 50`). -/
def partialInsertionSort_func (less : α → α → Bool) (data : List α) (a b : Nat) :
    (List α) × Bool :=
  partialInsertionSort_loop less a b 5 data (a + 1)

/-- Go `bits.Len(x)`: the minimum number of bits required to represent `x`. -/
def bits_Len (x : Nat) : Nat := if x = 0 then 0 else Nat.log2 x + 1

/-- Go `(*xorshift).Next` on a `uint64` state (shifts by 13, 7 and 17). The generator only
chooses which elements `breakPatterns_func` exchanges. -/
def xorshift_Next (r : Nat) : Nat :=
  let r := Nat.xor r ((r <<< 13) % 2 ^ 64)
  let r := Nat.xor r (r >>> 7)
  Nat.xor r ((r <<< 17) % 2 ^ 64)

/-- Go `nextPowerOfTwo(length)`. -/
def nextPowerOfTwo (length : Nat) : Nat := 1 <<< bits_Len length

/-- The `for i := 0; i < 3; i++` loop of `breakPatterns_func`; the first argument counts the
iterations that remain. -/
def breakPatterns_loop (a length modulus idx : Nat) :
    Nat → Nat → Nat → (List α) → (List α)
  | 0, _, _, data => data
  | fuel + 1, i, random, data =>
    let random := xorshift_Next random
    let other := Nat.land random (modulus - 1)
    let other := if other ≥ length then other - length else other
    breakPatterns_loop a length modulus idx fuel (i + 1) random
      (Swap data (idx - 1 + i) (a + other))

/-- Go `breakPatterns_func(data, a, b)`: scatters some elements around. -/
def breakPatterns_func (data : List α) (a b : Nat) : List α :=
  let length := b - a
  if length ≥ 8 then
    let random := length
    let modulus := nextPowerOfTwo length
    let idx := a + (length / 4) * 2 - 1
    breakPatterns_loop a length modulus idx 3 0 random data
  else data

/-- Go `sortedHint`: hint for pdqsort when choosing the pivot. -/
inductive sortedHint where
  | unknownHint
  | increasingHint
  | decreasingHint
  deriving DecidableEq, Repr

/-- Go `order2_func(data, a, b, swaps)`: returns `x, y` where `data[x] <= data[y]`, together with
the updated swap counter. -/
def order2_func (less : α → α → Bool) (data : List α) (a b swaps : Nat) : Nat × Nat × Nat :=
  if less (At data b) (At data a) then (b, a, swaps + 1) else (a, b, swaps)

/-- Go `median_func(data, a, b, c, swaps)`: the index of the median of three, together with the
updated swap counter. -/
def median_func (less : α → α → Bool) (data : List α) (a b c swaps : Nat) : Nat × Nat :=
  let r₁ := order2_func less data a b swaps
  let r₂ := order2_func less data r₁.2.1 c r₁.2.2
  let r₃ := order2_func less data r₁.1 r₂.1 r₂.2.2
  (r₃.2.1, r₃.2.2)

/-- Go `medianAdjacent_func(data, a, swaps)`. -/
def medianAdjacent_func (less : α → α → Bool) (data : List α) (a swaps : Nat) : Nat × Nat :=
  median_func less data (a - 1) a (a + 1) swaps

/-- Go `choosePivot_func(data, a, b)` (`shortestNinther = 50`, `maxSwaps = 4 * 3`). -/
def choosePivot_func (less : α → α → Bool) (data : List α) (a b : Nat) : Nat × sortedHint :=
  let l := b - a
  let swaps := 0
  let i := a + l / 4 * 1
  let j := a + l / 4 * 2
  let k := a + l / 4 * 3
  let r :=
    if l ≥ 8 then
      if l ≥ 50 then
        let ri := medianAdjacent_func less data i swaps
        let rj := medianAdjacent_func less data j ri.2
        let rk := medianAdjacent_func less data k rj.2
        median_func less data ri.1 rj.1 rk.1 rk.2
      else median_func less data i j k swaps
    else (j, swaps)
  if r.2 = 0 then (r.1, sortedHint.increasingHint)
  else if r.2 = 4 * 3 then (r.1, sortedHint.decreasingHint)
  else (r.1, sortedHint.unknownHint)

/-- The loop of `reverseRange_func`: `for i < j { data.Swap(i, j); i++; j-- }`. -/
def reverseRange_loop : Nat → (List α) → Nat → Nat → (List α)
  | 0, data, _, _ => data
  | fuel + 1, data, i, j =>
    if i < j then reverseRange_loop fuel (Swap data i j) (i + 1) (j - 1) else data

/-- Go `reverseRange_func(data, a, b)`. -/
def reverseRange_func (data : List α) (a b : Nat) : List α :=
  reverseRange_loop (b - a) data a (b - 1)

/-- Go `pdqsort_func(data, a, b, limit)` (`maxInsertion = 12`). The loop variables
`wasBalanced` and `wasPartitioned` are arguments: a call of the Go function starts with both
true, and an iteration of its `for` loop is a call that passes their current values. The first
argument bounds the number of nested iterations and calls; `b - a` is always enough. -/
def pdqsort_func (less : α → α → Bool) :
    Nat → (List α) → Nat → Nat → Nat → Bool → Bool → (List α)
  | 0, data, _, _, _, _, _ => data
  | fuel + 1, data, a, b, limit, wasBalanced, wasPartitioned =>
    let length := b - a
    if length ≤ 12 then insertionSort_func less data a b
    else if limit = 0 then heapSort_func less data a b
    else
      let data₁ := if !wasBalanced then breakPatterns_func data a b else data
      let limit := if !wasBalanced then limit - 1 else limit
      let ph := choosePivot_func less data₁ a b
      let data₂ :=
        if ph.2 = sortedHint.decreasingHint then reverseRange_func data₁ a b else data₁
      let pivot := if ph.2 = sortedHint.decreasingHint then (b - 1) - (ph.1 - a) else ph.1
      let hint :=
        if ph.2 = sortedHint.decreasingHint then sortedHint.increasingHint else ph.2
      let pis :=
        if wasBalanced && wasPartitioned && hint = sortedHint.increasingHint then
          partialInsertionSort_func less data₂ a b
        else (data₂, false)
      if pis.2 then pis.1
      else if a > 0 && !less (At pis.1 (a - 1)) (At pis.1 pivot) then
        let r := partitionEqual_func less pis.1 a b pivot
        pdqsort_func less fuel r.1 r.2 b limit wasBalanced wasPartitioned
      else
        let r := partition_func less pis.1 a b pivot
        let mid := r.2.1
        let leftLen := mid - a
        let rightLen := b - mid
        let balanceThreshold := length / 8
        if leftLen < rightLen then
          pdqsort_func less fuel (pdqsort_func less fuel r.1 a mid limit true true)
            (mid + 1) b limit (leftLen ≥ balanceThreshold) r.2.2
        else
          pdqsort_func less fuel (pdqsort_func less fuel r.1 (mid + 1) b limit true true)
            a mid limit (rightLen ≥ balanceThreshold) r.2.2

/-- Go `sort.Slice(x, less)`: `pdqsort_func(data, 0, length, bits.Len(length))` on the slice. -/
def sort_Slice [Inhabited α] (x : List α) (less : α → α → Bool) : List α :=
  let length := x.length
  let limit := bits_Len length
  let data := pdqsort_func less (length + 1) x 0 length limit true true
  data

end GoSort
/-! ## The command -/

/-- Outcome of the collaborators of one invocation: the kubeconfig loader
(`ToRESTConfig`, `Namespace`), the client constructor (`kubernetes.NewForConfig`), the
pod-listing call of a client (`CoreV1().Pods(ns).List`) and the prompt (`survey.AskOne` on a
`survey.Select` with the given options). -/
structure Collaborators (Config Client : Type) where
  ToRESTConfig : Except String Config
  NewForConfig : Config → Except String Client
  Namespace : Except String String
  ListPods : Client → String → Except String (List Pod)
  AskOne : List String → Except String String

/-- The fields of `IlogsOptions` that `Complete` reads or writes. A nil `clientSet` is `none`
and a nil `selectedPods` is the empty list. -/
structure IlogsOptions (Client : Type) where
  clientSet : Option Client
  filter : String
  container : String
  tail : Int
  currentNamespace : String
  allNamespaces : Bool
  selectedPods : List Pod

/-- The options `NewIlogsOptions` builds, before any flag is parsed. -/
def NewIlogsOptions (Client : Type) : IlogsOptions Client :=
  { clientSet := none, filter := "", container := "", tail := 0, currentNamespace := "",
    allNamespaces := false, selectedPods := [] }

/-- The comparison given to `sort.Slice` in `filterPods`:
`pods[i].CreationTimestamp.After(pods[j].CreationTimestamp.Time)`. -/
def podLess (x y : Pod) : Bool := Time_After x.CreationTimestamp y.CreationTimestamp

/-- The filtering loop of `filterPods`: the pods whose name contains the filter, in listing
order. -/
def matchingPods (filter : String) : List Pod → List Pod
  | [] => []
  | pod :: items =>
    if strings_Contains pod.Name filter then pod :: matchingPods filter items
    else matchingPods filter items

/-- `IlogsOptions.filterPods`; `listPods` is `o.clientSet.CoreV1().Pods(ns).List` and the other
arguments are the fields `o.currentNamespace` and `o.filter`. -/
def filterPods (listPods : String → Except String (List Pod)) (currentNamespace filter : String) :
    Except String (List Pod) :=
  match listPods currentNamespace with
  | .error err => .error err
  | .ok podItems =>
    if podItems.length = 0 then .error "no pods was found in current namespace"
    else
      let pods := matchingPods filter podItems
      if pods.length = 0 then .error ("no pods was found with filter:  " ++ filter)
      else .ok (sort_Slice pods podLess)

/-- The option list `selectPod` offers: "All" followed by each pod's name. -/
def podsNames (pods : List Pod) : List String :=
  ["All"] ++ pods.map (fun pod => pod.Name)

/-- The lookup loop of `selectPod`: the first pod with the selected name, alone in a slice, or
the empty slice when the loop ends without a match. -/
def lookupPod (selectedPodName : String) : List Pod → List Pod
  | [] => []
  | pod :: pods =>
    if pod.Name = selectedPodName then [pod] else lookupPod selectedPodName pods

/-- `IlogsOptions.selectPod`; `askOne` is the prompt. -/
def selectPod (askOne : List String → Except String String) (pods : List Pod) :
    Except String (List Pod) :=
  match askOne (podsNames pods) with
  | .error err => .error err
  | .ok selectedPodName =>
    if selectedPodName = "All" then .ok pods
    else .ok (lookupPod selectedPodName pods)

/-- `IlogsOptions.Complete`: the returned error (or nil) and the options as the call leaves
them. A collaborator that fails is taken to return the zero value next to its error. -/
def Complete {Config Client : Type} (k : Collaborators Config Client) (o : IlogsOptions Client)
    (args : List String) : Except String Unit × IlogsOptions Client :=
  if args.length = 0 then (.error "pod filter is required", o)
  else
    match k.ToRESTConfig with
    | .error err => (.error err, o)
    | .ok restConfig =>
      match k.NewForConfig restConfig with
      | .error err => (.error err, { o with clientSet := none })
      | .ok clientSet =>
        let o := { o with clientSet := some clientSet }
        if args.length = 0 || args.getD 0 "" = "" then (.error "pod filter is required", o)
        else
          let o := { o with filter := args.getD 0 "" }
          match k.Namespace with
          | .error err => (.error err, { o with currentNamespace := "" })
          | .ok ns =>
            let o := { o with currentNamespace := ns }
            let o := if o.allNamespaces then { o with currentNamespace := "" } else o
            match filterPods (k.ListPods clientSet) o.currentNamespace o.filter with
            | .error err => (.error err, o)
            | .ok pods =>
              match selectPod k.AskOne pods with
              | .error err => (.error err, { o with selectedPods := [] })
              | .ok selectedPods => (.ok (), { o with selectedPods := selectedPods })

/-- A cluster whose kubeconfig cannot be loaded. -/
def brokenConfig : Collaborators Unit Unit :=
  { ToRESTConfig := .error "invalid configuration", NewForConfig := fun _ => .ok (),
    Namespace := .ok "default", ListPods := fun _ _ => .ok [], AskOne := fun _ => .ok "All" }

/-- A reachable cluster with no pods. -/
def emptyCluster : Collaborators Unit Unit :=
  { ToRESTConfig := .ok (), NewForConfig := fun _ => .ok (),
    Namespace := .ok "default", ListPods := fun _ _ => .ok [], AskOne := fun _ => .ok "All" }

/-- A listing of thirteen pods that all match the filter "web": the first is the oldest and the
other twelve share one creation timestamp. -/
def tiedListing : List Pod :=
  [⟨"web-0", "default", 1⟩, ⟨"web-1", "default", 2⟩, ⟨"web-2", "default", 2⟩,
   ⟨"web-3", "default", 2⟩, ⟨"web-4", "default", 2⟩, ⟨"web-5", "default", 2⟩,
   ⟨"web-6", "default", 2⟩, ⟨"web-7", "default", 2⟩, ⟨"web-8", "default", 2⟩,
   ⟨"web-9", "default", 2⟩, ⟨"web-10", "default", 2⟩, ⟨"web-11", "default", 2⟩,
   ⟨"web-12", "default", 2⟩]

/-- What `filterPods` returns for `tiedListing`: "web-6" has moved in front of "web-1". -/
def tiedResult : List Pod :=
  [⟨"web-6", "default", 2⟩, ⟨"web-1", "default", 2⟩, ⟨"web-2", "default", 2⟩,
   ⟨"web-3", "default", 2⟩, ⟨"web-4", "default", 2⟩, ⟨"web-5", "default", 2⟩,
   ⟨"web-7", "default", 2⟩, ⟨"web-8", "default", 2⟩, ⟨"web-9", "default", 2⟩,
   ⟨"web-10", "default", 2⟩, ⟨"web-11", "default", 2⟩, ⟨"web-12", "default", 2⟩,
   ⟨"web-0", "default", 1⟩]

/-! ## Specification predicates for the sort -/

section SortSpec

variable {α : Type} [Inhabited α]

/-- The slice `d'` is the slice `d` with the elements at the indices `a ≤ k < b` rearranged:
same length, same elements, nothing moved outside the range. -/
def Shuf (a b : Nat) (d d' : List α) : Prop :=
  d'.length = d.length ∧ d'.Perm d ∧ (∀ k, k < a ∨ b ≤ k → At d' k = At d k) ∧
  (∀ k, a ≤ k → k < b → ∃ k', a ≤ k' ∧ k' < b ∧ At d' k = At d k')

/-- The keys of `d[a:b]` are in non-decreasing order. -/
def SortedOn (key : α → Int) (d : List α) (a b : Nat) : Prop :=
  ∀ i j, a ≤ i → i ≤ j → j < b → key (At d i) ≤ key (At d j)

/-- When `a > 0`, the element `d[a-1]` is not greater than any element of `d[a:b]`: the state
in which `pdqsort_func` is entered on the right part of a partition. -/
def LowerBound (key : α → Int) (d : List α) (a b : Nat) : Prop :=
  0 < a → ∀ k, a ≤ k → k < b → key (At d (a - 1)) ≤ key (At d k)

/-- In the slice `d'` the elements of each key stand in the same order as in `d`. -/
def SameOrderByKey (key : α → Int) (d d' : List α) : Prop :=
  ∀ t : Int, d'.filter (fun x => decide (key x = t)) = d.filter (fun x => decide (key x = t))

end SortSpec

section SortInvariants

variable {α : Type} [Inhabited α]

/-- State of the inner loop of `insertionSort_func` while the element first found at index `i`
stands at index `j`: the other elements of `d[a:i+1]` are in order, and the moving element is
not greater than those to its right. -/
def InsInv (key : α → Int) (d : List α) (a j i : Nat) : Prop :=
  (∀ p q, a ≤ p → p ≤ q → q ≤ i → p ≠ j → q ≠ j → key (At d p) ≤ key (At d q)) ∧
  (∀ q, j < q → q ≤ i → key (At d j) ≤ key (At d q))

/-- Max-heap property of `d[first : first+hi]` at every parent index `p ≥ lo`: a child is not
greater than its parent. -/
def HeapFrom (key : α → Int) (d : List α) (first lo hi : Nat) : Prop :=
  ∀ p c, lo ≤ p → c < hi → (c = 2 * p + 1 ∨ c = 2 * p + 2) →
    key (At d (first + c)) ≤ key (At d (first + p))

/-- State of the loop of `siftDown_func` at `root = r`: the heap property holds at every parent
`p ≥ lo` other than `r`, and the children of `r` are not greater than the parent of `r`. -/
def HeapExcept (key : α → Int) (d : List α) (first lo hi r : Nat) : Prop :=
  (∀ p c, lo ≤ p → p ≠ r → c < hi → (c = 2 * p + 1 ∨ c = 2 * p + 2) →
    key (At d (first + c)) ≤ key (At d (first + p))) ∧
  (∀ p c, lo ≤ p → (r = 2 * p + 1 ∨ r = 2 * p + 2) → c < hi → (c = 2 * r + 1 ∨ c = 2 * r + 2) →
    key (At d (first + c)) ≤ key (At d (first + p)))

end SortInvariants

/-! ## Elementary facts about slices -/

section SliceFacts

variable {α : Type} [Inhabited α]

theorem At_cons_succ (x : α) (xs : List α) (k : Nat) : At (x :: xs) (k + 1) = At xs k := by
  simp [At]

theorem At_cons_zero (x : α) (xs : List α) : At (x :: xs) 0 = x := by
  simp [At]

theorem At_eq_getElem (d : List α) (k : Nat) (h : k < d.length) : At d k = d[k] := by
  simp [At, List.getD_eq_getElem?_getD, List.getElem?_eq_getElem h]

@[simp] theorem length_Swap (d : List α) (i j : Nat) : (Swap d i j).length = d.length := by
  simp [Swap]

theorem At_set (d : List α) (i : Nat) (x : α) (hi : i < d.length) (k : Nat) :
    At (d.set i x) k = if k = i then x else At d k := by
  unfold At
  rw [List.getD_eq_getElem?_getD, List.getD_eq_getElem?_getD, List.getElem?_set]
  by_cases h : i = k
  · subst h
    simp [hi]
  · have h' : ¬ k = i := fun e => h e.symm
    simp [h, h']

theorem At_Swap (d : List α) {i j : Nat} (hi : i < d.length) (hj : j < d.length) (k : Nat) :
    At (Swap d i j) k = if k = j then At d i else if k = i then At d j else At d k := by
  unfold Swap
  rw [At_set _ _ _ (by simpa using hj), At_set _ _ _ hi]

theorem At_Swap_left (d : List α) {i j : Nat} (hi : i < d.length) (hj : j < d.length) :
    At (Swap d i j) i = At d j := by
  rw [At_Swap d hi hj]
  by_cases h : i = j
  · rw [if_pos h, h]
  · rw [if_neg h, if_pos rfl]

theorem At_Swap_right (d : List α) {i j : Nat} (hi : i < d.length) (hj : j < d.length) :
    At (Swap d i j) j = At d i := by
  rw [At_Swap d hi hj, if_pos rfl]

theorem At_Swap_other (d : List α) {i j : Nat} (hi : i < d.length) (hj : j < d.length)
    {k : Nat} (hki : k ≠ i) (hkj : k ≠ j) : At (Swap d i j) k = At d k := by
  rw [At_Swap d hi hj, if_neg hkj, if_neg hki]

theorem set_head_perm (x : α) : ∀ (xs : List α) (j : Nat), j < xs.length →
    (At xs j :: xs.set j x).Perm (x :: xs)
  | [], j, h => by simp at h
  | y :: ys, 0, _ => by
    simpa [At_cons_zero] using List.Perm.swap x y ys
  | y :: ys, j + 1, h => by
    have hj : j < ys.length := by simpa using h
    have ih := set_head_perm x ys j hj
    rw [At_cons_succ, List.set_cons_succ]
    exact ((List.Perm.swap y (At ys j) (ys.set j x)).trans (ih.cons y)).trans
      (List.Perm.swap x y ys)

theorem Swap_perm_lt : ∀ (d : List α) (i j : Nat), i < j → j < d.length → (Swap d i j).Perm d
  | [], _, _, _, h => by simp at h
  | x :: xs, 0, j + 1, _, h => by
    have hj : j < xs.length := by simpa using h
    simpa [Swap, At_cons_zero, At_cons_succ] using set_head_perm x xs j hj
  | x :: xs, i + 1, j + 1, hij, h => by
    have hj : j < xs.length := by simpa using h
    have ih := Swap_perm_lt xs i j (by omega) hj
    simpa [Swap, At_cons_succ] using ih.cons x
  | _ :: _, _, 0, hij, _ => by omega

theorem Swap_comm (d : List α) (i j : Nat) : Swap d i j = Swap d j i := by
  by_cases h : i = j
  · subst h; rfl
  · unfold Swap
    exact List.set_comm _ _ _ h

theorem Swap_self (d : List α) (i : Nat) : Swap d i i = d := by
  apply List.ext_getElem?
  intro k
  simp only [Swap, List.getElem?_set, List.length_set, At, List.getD_eq_getElem?_getD]
  by_cases h : i = k
  · subst h
    by_cases hi : i < d.length
    · simp [hi, List.getElem?_eq_getElem hi]
    · simp [hi, List.getElem?_eq_none (Nat.le_of_not_lt hi)]
  · simp [h]

theorem Swap_perm (d : List α) {i j : Nat} (hi : i < d.length) (hj : j < d.length) :
    (Swap d i j).Perm d := by
  rcases Nat.lt_trichotomy i j with h | h | h
  · exact Swap_perm_lt d i j h hj
  · subst h
    rw [Swap_self]
  · rw [Swap_comm]
    exact Swap_perm_lt d j i h hi

/-! ### Rearrangements within a range -/

theorem Shuf.refl (a b : Nat) (d : List α) : Shuf a b d d :=
  ⟨rfl, List.Perm.refl _, fun _ _ => rfl, fun k h1 h2 => ⟨k, h1, h2, rfl⟩⟩

theorem Shuf.trans {a b : Nat} {d₁ d₂ d₃ : List α} (h₁ : Shuf a b d₁ d₂) (h₂ : Shuf a b d₂ d₃) :
    Shuf a b d₁ d₃ := by
  obtain ⟨l₁, p₁, f₁, r₁⟩ := h₁
  obtain ⟨l₂, p₂, f₂, r₂⟩ := h₂
  refine ⟨l₂.trans l₁, p₂.trans p₁, fun k hk => (f₂ k hk).trans (f₁ k hk), ?_⟩
  intro k hk1 hk2
  obtain ⟨k', h1, h2, e⟩ := r₂ k hk1 hk2
  obtain ⟨k'', h3, h4, e'⟩ := r₁ k' h1 h2
  exact ⟨k'', h3, h4, e.trans e'⟩

theorem Shuf.mono {a b a' b' : Nat} {d d' : List α} (h : Shuf a b d d') (ha : a' ≤ a)
    (hb : b ≤ b') : Shuf a' b' d d' := by
  obtain ⟨l, p, f, r⟩ := h
  refine ⟨l, p, fun k hk => f k (by omega), ?_⟩
  intro k hk1 hk2
  by_cases hin : a ≤ k ∧ k < b
  · obtain ⟨k', h1, h2, e⟩ := r k hin.1 hin.2
    exact ⟨k', by omega, by omega, e⟩
  · exact ⟨k, hk1, hk2, f k (by omega)⟩

theorem Shuf.swap {a b : Nat} (d : List α) {i j : Nat} (hai : a ≤ i) (hib : i < b) (haj : a ≤ j)
    (hjb : j < b) (hb : b ≤ d.length) : Shuf a b d (Swap d i j) := by
  have hi : i < d.length := by omega
  have hj : j < d.length := by omega
  refine ⟨length_Swap d i j, Swap_perm d hi hj, ?_, ?_⟩
  · intro k hk
    rw [At_Swap d hi hj, if_neg (by omega), if_neg (by omega)]
  · intro k hk1 hk2
    rw [At_Swap d hi hj]
    by_cases h1 : k = j
    · exact ⟨i, hai, hib, by rw [if_pos h1]⟩
    · by_cases h2 : k = i
      · exact ⟨j, haj, hjb, by rw [if_neg h1, if_pos h2]⟩
      · exact ⟨k, hk1, hk2, by rw [if_neg h1, if_neg h2]⟩

theorem Shuf.length_eq {a b : Nat} {d d' : List α} (h : Shuf a b d d') : d'.length = d.length :=
  h.1

theorem Shuf.perm {a b : Nat} {d d' : List α} (h : Shuf a b d d') : d'.Perm d := h.2.1

theorem Shuf.frame {a b : Nat} {d d' : List α} (h : Shuf a b d d') {k : Nat}
    (hk : k < a ∨ b ≤ k) : At d' k = At d k := h.2.2.1 k hk

theorem Shuf.forall_range {a b : Nat} {d d' : List α} (h : Shuf a b d d') {P : α → Prop}
    (hP : ∀ k, a ≤ k → k < b → P (At d k)) : ∀ k, a ≤ k → k < b → P (At d' k) := by
  intro k h1 h2
  obtain ⟨k', h3, h4, e⟩ := h.2.2.2 k h1 h2
  rw [e]
  exact hP k' h3 h4

theorem LowerBound.of_Shuf {key : α → Int} {a b : Nat} {d d' : List α}
    (h : LowerBound key d a b) (hs : Shuf a b d d') : LowerBound key d' a b := by
  intro ha k hk1 hk2
  rw [hs.frame (Or.inl (by omega))]
  exact hs.forall_range (P := fun x => key (At d (a - 1)) ≤ key x) (h ha) k hk1 hk2

end SliceFacts

/-! ## Insertion sort -/

section SameOrder

variable {α : Type}

theorem SameOrderByKey.unchanged (key : α → Int) (d : List α) : SameOrderByKey key d d :=
  fun _ => rfl

theorem SameOrderByKey.followedBy {key : α → Int} {d₁ d₂ d₃ : List α}
    (h₁ : SameOrderByKey key d₁ d₂) (h₂ : SameOrderByKey key d₂ d₃) :
    SameOrderByKey key d₁ d₃ :=
  fun t => (h₂ t).trans (h₁ t)

end SameOrder

section InsertionSort

variable {α : Type} [Inhabited α]

theorem Swap_cons_succ (x : α) (xs : List α) (i j : Nat) :
    Swap (x :: xs) (i + 1) (j + 1) = x :: Swap xs i j := by
  simp [Swap, At_cons_succ]

/-- Exchanging two neighbours with different keys keeps the order within each key. -/
theorem SameOrderByKey.swap_adjacent (key : α → Int) : ∀ (d : List α) (j : Nat),
    j + 1 < d.length → key (At d (j + 1)) ≠ key (At d j) →
    SameOrderByKey key d (Swap d (j + 1) j)
  | [], _, h, _ => by simp at h
  | [_], _, h, _ => by simp at h
  | x :: y :: rest, 0, _, hne => by
    intro t
    have hxy : key y ≠ key x := by simpa [At] using hne
    have hsw : Swap (x :: y :: rest) (0 + 1) 0 = y :: x :: rest := by simp [Swap, At]
    rw [hsw]
    by_cases hx : key x = t
    · have hy : ¬ key y = t := fun e => hxy (e.trans hx.symm)
      simp [List.filter_cons, hx, hy]
    · simp [List.filter_cons, hx]
  | x :: xs, j + 1, h, hne => by
    intro t
    have hlen : j + 1 < xs.length := by simpa using h
    have hne' : key (At xs (j + 1)) ≠ key (At xs j) := by simpa [At_cons_succ] using hne
    have ih := SameOrderByKey.swap_adjacent key xs j hlen hne' t
    rw [Swap_cons_succ]
    simp only [List.filter_cons, ih]

variable (less : α → α → Bool) (key : α → Int)

theorem length_insertionSort_inner (a : Nat) : ∀ (j : Nat) (d : List α),
    (insertionSort_inner less a j d).length = d.length
  | 0, d => rfl
  | j + 1, d => by
    unfold insertionSort_inner
    split
    · rw [length_insertionSort_inner a j, length_Swap]
    · rfl

theorem insertionSort_inner_spec (hk : ∀ x y, less x y = true ↔ key x < key y) (a i : Nat) :
    ∀ (j : Nat) (d : List α), a ≤ j → j ≤ i → i < d.length → InsInv key d a j i →
      Shuf a (j + 1) d (insertionSort_inner less a j d) ∧
      SortedOn key (insertionSort_inner less a j d) a (i + 1)
  | 0, d, _, _, _, hinv => by
    refine ⟨Shuf.refl _ _ _, ?_⟩
    intro p q hp hpq hq
    show key (At d p) ≤ key (At d q)
    by_cases hp0 : p = 0
    · by_cases hq0 : q = 0
      · rw [hp0, hq0]
      · rw [hp0]
        exact hinv.2 q (by omega) (by omega)
    · exact hinv.1 p q hp hpq (by omega) hp0 (by omega)
  | j + 1, d, haj, hji, hlen, hinv => by
    unfold insertionSort_inner
    by_cases hc : (decide (j + 1 > a) && less (At d (j + 1)) (At d j)) = true
    · rw [if_pos hc]
      simp only [Bool.and_eq_true, decide_eq_true_eq] at hc
      obtain ⟨hgt, hlt⟩ := hc
      have hlt' : key (At d (j + 1)) < key (At d j) := (hk _ _).mp hlt
      have hj1 : j + 1 < d.length := by omega
      have hj0 : j < d.length := by omega
      have hsw : ∀ k, At (Swap d (j + 1) j) k
          = if k = j then At d (j + 1) else if k = j + 1 then At d j else At d k :=
        At_Swap d hj1 hj0
      have hinv' : InsInv key (Swap d (j + 1) j) a j i := by
        constructor
        · intro p q hp hpq hq hpj hqj
          rw [hsw p, hsw q, if_neg hpj, if_neg hqj]
          by_cases hp1 : p = j + 1
          · by_cases hq1 : q = j + 1
            · rw [if_pos hp1, if_pos hq1]
            · rw [if_pos hp1, if_neg hq1]
              exact hinv.1 j q (by omega) (by omega) hq (by omega) hq1
          · by_cases hq1 : q = j + 1
            · rw [if_neg hp1, if_pos hq1]
              exact hinv.1 p j hp (by omega) (by omega) hp1 (by omega)
            · rw [if_neg hp1, if_neg hq1]
              exact hinv.1 p q hp hpq hq hp1 hq1
        · intro q hjq hq
          rw [hsw j, hsw q, if_pos rfl, if_neg (by omega)]
          by_cases hq1 : q = j + 1
          · rw [if_pos hq1]
            exact le_of_lt hlt'
          · rw [if_neg hq1]
            exact hinv.2 q (by omega) hq
      have ih := insertionSort_inner_spec hk a i j (Swap d (j + 1) j) (by omega) (by omega)
        (by rw [length_Swap]; exact hlen) hinv'
      refine ⟨?_, ih.2⟩
      exact (Shuf.swap (a := a) (b := j + 1 + 1) d (by omega) (by omega) (by omega) (by omega)
        (by omega)).trans (ih.1.mono (le_refl _) (by omega))
    · rw [if_neg hc]
      refine ⟨Shuf.refl _ _ _, ?_⟩
      simp only [Bool.and_eq_true, decide_eq_true_eq, not_and, Bool.not_eq_true] at hc
      intro p q hp hpq hq
      by_cases hpj : p = j + 1
      · by_cases hqj : q = j + 1
        · rw [hpj, hqj]
        · rw [hpj]
          exact hinv.2 q (by omega) (by omega)
      · by_cases hqj : q = j + 1
        · have hgt : j + 1 > a := by omega
          have hnl : ¬ key (At d (j + 1)) < key (At d j) := by
            intro hlt
            have := hc hgt
            rw [(hk _ _).mpr hlt] at this
            exact Bool.noConfusion this
          have h1 : key (At d p) ≤ key (At d j) := by
            by_cases hpj' : p = j
            · rw [hpj']
            · exact hinv.1 p j hp (by omega) (by omega) hpj (by omega)
          rw [hqj]
          omega
        · exact hinv.1 p q hp hpq (by omega) hpj hqj

theorem insertionSort_inner_sameOrder (hk : ∀ x y, less x y = true ↔ key x < key y) (a : Nat) :
    ∀ (j : Nat) (d : List α), j < d.length →
      SameOrderByKey key d (insertionSort_inner less a j d)
  | 0, d, _ => SameOrderByKey.unchanged key d
  | j + 1, d, hlen => by
    unfold insertionSort_inner
    by_cases hc : (decide (j + 1 > a) && less (At d (j + 1)) (At d j)) = true
    · rw [if_pos hc]
      simp only [Bool.and_eq_true, decide_eq_true_eq] at hc
      have hlt : key (At d (j + 1)) < key (At d j) := (hk _ _).mp hc.2
      exact (SameOrderByKey.swap_adjacent key d j hlen (ne_of_lt hlt)).followedBy
        (insertionSort_inner_sameOrder hk a j _ (by rw [length_Swap]; omega))
    · rw [if_neg hc]
      exact SameOrderByKey.unchanged key d

theorem length_insertionSort_outer (a b : Nat) : ∀ (fuel i : Nat) (d : List α),
    (insertionSort_outer less a b fuel i d).length = d.length
  | 0, _, _ => rfl
  | fuel + 1, i, d => by
    unfold insertionSort_outer
    split
    · rw [length_insertionSort_outer a b fuel, length_insertionSort_inner]
    · rfl

theorem insertionSort_outer_spec (hk : ∀ x y, less x y = true ↔ key x < key y) (a b : Nat) :
    ∀ (fuel i : Nat) (d : List α), a ≤ i → i ≤ b → b ≤ i + fuel → b ≤ d.length →
      SortedOn key d a i →
      Shuf a b d (insertionSort_outer less a b fuel i d) ∧
      SortedOn key (insertionSort_outer less a b fuel i d) a b
  | 0, i, d, _, hib, hfuel, _, hs => by
    have : i = b := by omega
    subst this
    exact ⟨Shuf.refl _ _ _, hs⟩
  | fuel + 1, i, d, hai, hib, hfuel, hlen, hs => by
    unfold insertionSort_outer
    by_cases hc : i < b
    · rw [if_pos hc]
      have hinv : InsInv key d a i i := by
        constructor
        · intro p q hp hpq hq hpi hqi
          exact hs p q hp hpq (by omega)
        · intro q h1 h2
          omega
      have hin := insertionSort_inner_spec less key hk a i i d hai (le_refl _) (by omega) hinv
      have ih := insertionSort_outer_spec hk a b fuel (i + 1) (insertionSort_inner less a i d)
        (by omega) (by omega) (by omega) (by rw [length_insertionSort_inner]; exact hlen) hin.2
      exact ⟨(hin.1.mono (le_refl _) (by omega)).trans ih.1, ih.2⟩
    · rw [if_neg hc]
      have : i = b := by omega
      subst this
      exact ⟨Shuf.refl _ _ _, hs⟩

theorem insertionSort_outer_sameOrder (hk : ∀ x y, less x y = true ↔ key x < key y)
    (a b : Nat) : ∀ (fuel i : Nat) (d : List α), b ≤ d.length →
      SameOrderByKey key d (insertionSort_outer less a b fuel i d)
  | 0, _, d, _ => SameOrderByKey.unchanged key d
  | fuel + 1, i, d, hlen => by
    unfold insertionSort_outer
    by_cases hc : i < b
    · rw [if_pos hc]
      exact (insertionSort_inner_sameOrder less key hk a i d (by omega)).followedBy
        (insertionSort_outer_sameOrder hk a b fuel (i + 1) _
          (by rw [length_insertionSort_inner]; exact hlen))
    · rw [if_neg hc]
      exact SameOrderByKey.unchanged key d

/-- `insertionSort_func` sorts `data[a:b]` and moves nothing else. -/
theorem insertionSort_func_spec (hk : ∀ x y, less x y = true ↔ key x < key y) (d : List α)
    (a b : Nat) (hb : b ≤ d.length) :
    Shuf a b d (insertionSort_func less d a b) ∧
    SortedOn key (insertionSort_func less d a b) a b := by
  unfold insertionSort_func
  by_cases hab : a + 1 ≤ b
  · refine insertionSort_outer_spec less key hk a b (b - (a + 1)) (a + 1) d (by omega) hab
      (by omega) hb ?_
    intro p q hp hpq hq
    have : p = q := by omega
    rw [this]
  · have h0 : b - (a + 1) = 0 := by omega
    rw [h0]
    refine ⟨Shuf.refl _ _ _, ?_⟩
    intro p q hp hpq hq
    omega

/-- `insertionSort_func` is stable: it keeps the order of elements with equal keys. -/
theorem insertionSort_func_sameOrder (hk : ∀ x y, less x y = true ↔ key x < key y)
    (d : List α) (a b : Nat) (hb : b ≤ d.length) :
    SameOrderByKey key d (insertionSort_func less d a b) :=
  insertionSort_outer_sameOrder less key hk a b _ _ d hb

end InsertionSort

/-! ## Heap sort -/

section HeapSort

variable {α : Type} [Inhabited α] (less : α → α → Bool) (key : α → Int)

theorem siftDown_loop_spec (hk : ∀ x y, less x y = true ↔ key x < key y) (first lo hi : Nat) :
    ∀ (fuel : Nat) (d : List α) (root : Nat), lo ≤ root → hi ≤ root + fuel →
      first + hi ≤ d.length → HeapExcept key d first lo hi root →
      Shuf (first + lo) (first + hi) d (siftDown_loop less hi first fuel d root) ∧
      HeapFrom key (siftDown_loop less hi first fuel d root) first lo hi
  | 0, d, root, _, hfuel, _, hinv => by
    refine ⟨Shuf.refl _ _ _, ?_⟩
    intro p c hp hc hpc
    by_cases hpr : p = root
    · omega
    · exact hinv.1 p c hp hpr hc hpc
  | fuel + 1, d, root, hlo, hfuel, hlen, hinv => by
    unfold siftDown_loop
    by_cases h0 : 2 * root + 1 ≥ hi
    · simp only [h0, if_true]
      refine ⟨Shuf.refl _ _ _, ?_⟩
      intro p c hp hc hpc
      by_cases hpr : p = root
      · omega
      · exact hinv.1 p c hp hpr hc hpc
    · simp only [h0, if_false]
      have h0' : 2 * root + 1 < hi := by omega
      -- the greater child
      obtain ⟨c, hc_def, hc_cases, hc_max⟩ :
          ∃ c, (if (decide (2 * root + 1 + 1 < hi) &&
                  less (At d (first + (2 * root + 1))) (At d (first + (2 * root + 1) + 1)))
                then 2 * root + 1 + 1 else 2 * root + 1) = c ∧
            ((c = 2 * root + 1) ∨ (c = 2 * root + 2 ∧ 2 * root + 2 < hi)) ∧
            (∀ x, x < hi → (x = 2 * root + 1 ∨ x = 2 * root + 2) →
              key (At d (first + x)) ≤ key (At d (first + c))) := by
        by_cases hc : (decide (2 * root + 1 + 1 < hi) &&
            less (At d (first + (2 * root + 1))) (At d (first + (2 * root + 1) + 1))) = true
        · refine ⟨2 * root + 2, by rw [if_pos hc], ?_, ?_⟩
          · simp only [Bool.and_eq_true, decide_eq_true_eq] at hc
            exact Or.inr ⟨rfl, by omega⟩
          · simp only [Bool.and_eq_true, decide_eq_true_eq] at hc
            have hlt := (hk _ _).mp hc.2
            intro x hx hxc
            rcases hxc with h | h
            · subst h
              have e : first + (2 * root + 1) + 1 = first + (2 * root + 2) := by omega
              rw [e] at hlt
              exact le_of_lt hlt
            · subst h
              exact le_refl _
        · refine ⟨2 * root + 1, by rw [if_neg hc], Or.inl rfl, ?_⟩
          simp only [Bool.and_eq_true, decide_eq_true_eq, not_and, Bool.not_eq_true] at hc
          intro x hx hxc
          rcases hxc with h | h
          · subst h
            exact le_refl _
          · subst h
            have hnl := hc (by omega)
            have e : first + (2 * root + 1) + 1 = first + (2 * root + 2) := by omega
            rw [e] at hnl
            have : ¬ key (At d (first + (2 * root + 1))) < key (At d (first + (2 * root + 2))) := by
              intro hlt
              rw [(hk _ _).mpr hlt] at hnl
              exact Bool.noConfusion hnl
            omega
      rw [hc_def]
      have hc_hi : c < hi := by omega
      have hc_root : root < c := by omega
      by_cases hl : less (At d (first + root)) (At d (first + c)) = true
      · simp only [hl, Bool.not_true, Bool.false_eq_true, if_false]
        have hlt := (hk _ _).mp hl
        have hi1 : first + root < d.length := by omega
        have hi2 : first + c < d.length := by omega
        have eL : At (Swap d (first + root) (first + c)) (first + root) = At d (first + c) :=
          At_Swap_left d hi1 hi2
        have eR : At (Swap d (first + root) (first + c)) (first + c) = At d (first + root) :=
          At_Swap_right d hi1 hi2
        have eO : ∀ k, k ≠ root → k ≠ c →
            At (Swap d (first + root) (first + c)) (first + k) = At d (first + k) :=
          fun k h1 h2 => At_Swap_other d hi1 hi2 (by omega) (by omega)
        have hinv' : HeapExcept key (Swap d (first + root) (first + c)) first lo hi c := by
          constructor
          · intro p x hp hpc hx hpx
            by_cases hpr : p = root
            · subst hpr
              rw [eL]
              by_cases hxc : x = c
              · subst hxc
                rw [eR]
                exact le_of_lt hlt
              · rw [eO x (by omega) hxc]
                exact hc_max x hx hpx
            · rw [eO p hpr hpc]
              by_cases hxr : x = root
              · subst hxr
                rw [eL]
                exact hinv.2 p c hp hpx hc_hi (by omega)
              · have hxc : x ≠ c := by omega
                rw [eO x hxr hxc]
                exact hinv.1 p x hp hpr hx hpx
          · intro p x hp hcp hx hxc
            have hpr : p = root := by omega
            subst hpr
            rw [eL, eO x (by omega) (by omega)]
            exact hinv.1 c x (by omega) (by omega) hx hxc
        have ih := siftDown_loop_spec hk first lo hi fuel (Swap d (first + root) (first + c)) c
          (by omega) (by omega) (by rw [length_Swap]; exact hlen) hinv'
        refine ⟨?_, ih.2⟩
        exact (Shuf.swap d (by omega) (by omega) (by omega) (by omega) hlen).trans ih.1
      · simp only [hl, Bool.not_false, if_true]
        refine ⟨Shuf.refl _ _ _, ?_⟩
        have hnl : ¬ key (At d (first + root)) < key (At d (first + c)) :=
          fun h => hl ((hk _ _).mpr h)
        intro p x hp hx hpx
        by_cases hpr : p = root
        · subst hpr
          have := hc_max x hx hpx
          omega
        · exact hinv.1 p x hp hpr hx hpx

theorem siftDown_func_spec (hk : ∀ x y, less x y = true ↔ key x < key y) (d : List α)
    (lo hi first : Nat) (hlen : first + hi ≤ d.length) (hinv : HeapExcept key d first lo hi lo) :
    Shuf (first + lo) (first + hi) d (siftDown_func less d lo hi first) ∧
    HeapFrom key (siftDown_func less d lo hi first) first lo hi :=
  siftDown_loop_spec less key hk first lo hi hi d lo (le_refl _) (by omega) hlen hinv

/-- In a max-heap the root holds a greatest key. -/
theorem HeapFrom.root_max {key : α → Int} {d : List α} {first n : Nat}
    (h : HeapFrom key d first 0 n) : ∀ x, x < n → key (At d (first + x)) ≤ key (At d (first + 0)) := by
  intro x
  induction x using Nat.strong_induction_on with
  | _ x ih =>
    intro hx
    by_cases h0 : x = 0
    · rw [h0]
    · have hp : (x - 1) / 2 < x := by omega
      have h1 := ih ((x - 1) / 2) hp (by omega)
      have h2 := h ((x - 1) / 2) x (Nat.zero_le _) hx (by omega)
      omega

theorem heapSort_build_spec (hk : ∀ x y, less x y = true ↔ key x < key y) (hi first : Nat) :
    ∀ (c : Nat) (d : List α), first + hi ≤ d.length → HeapFrom key d first c hi →
      Shuf first (first + hi) d (heapSort_build less hi first c d) ∧
      HeapFrom key (heapSort_build less hi first c d) first 0 hi
  | 0, d, _, h => ⟨Shuf.refl _ _ _, h⟩
  | i + 1, d, hlen, h => by
    unfold heapSort_build
    have hinv : HeapExcept key d first i hi i := by
      constructor
      · intro p c hp hpi hc hpc
        exact h p c (by omega) hc hpc
      · intro p c hp hip
        omega
    have hs := siftDown_func_spec less key hk d i hi first hlen hinv
    have ih := heapSort_build_spec hk hi first i (siftDown_func less d i hi first)
      (by rw [hs.1.length_eq]; exact hlen) hs.2
    exact ⟨(hs.1.mono (by omega) (le_refl _)).trans ih.1, ih.2⟩

theorem heapSort_pop_spec (hk : ∀ x y, less x y = true ↔ key x < key y) (hi first : Nat) :
    ∀ (c : Nat) (d : List α), c ≤ hi → first + hi ≤ d.length → HeapFrom key d first 0 c →
      SortedOn key d (first + c) (first + hi) →
      (∀ x y, x < c → c ≤ y → y < hi → key (At d (first + x)) ≤ key (At d (first + y))) →
      Shuf first (first + hi) d (heapSort_pop less 0 first c d) ∧
      SortedOn key (heapSort_pop less 0 first c d) first (first + hi)
  | 0, d, _, _, _, hs, _ => by
    refine ⟨Shuf.refl _ _ _, ?_⟩
    simpa using hs
  | i + 1, d, hc, hlen, hheap, hs, hcross => by
    unfold heapSort_pop
    have hi1 : first < d.length := by omega
    have hi2 : first + i < d.length := by omega
    have eL : At (Swap d first (first + i)) first = At d (first + i) := At_Swap_left d hi1 hi2
    have eR : At (Swap d first (first + i)) (first + i) = At d first := At_Swap_right d hi1 hi2
    have eO : ∀ k, k ≠ first → k ≠ first + i → At (Swap d first (first + i)) k = At d k :=
      fun k h1 h2 => At_Swap_other d hi1 hi2 h1 h2
    have hmax := hheap.root_max
    simp only [Nat.add_zero] at hmax
    have hinv : HeapExcept key (Swap d first (first + i)) first 0 i 0 := by
      constructor
      · intro p c hp hp0 hci hpc
        rw [eO (first + c) (by omega) (by omega), eO (first + p) (by omega) (by omega)]
        exact hheap p c hp (by omega) hpc
      · intro p c hp h0
        omega
    have hsd := siftDown_func_spec less key hk (Swap d first (first + i)) 0 i first
      (by rw [length_Swap]; omega) hinv
    simp only [Nat.add_zero] at hsd
    have hfr : ∀ k, first + i ≤ k →
        At (siftDown_func less (Swap d first (first + i)) 0 i first) k
          = At (Swap d first (first + i)) k :=
      fun k hk' => hsd.1.frame (Or.inr hk')
    -- every element of the new heap region comes from the old heap region
    have hreg : ∀ x, x < i → ∃ x', x' < i + 1 ∧
        At (siftDown_func less (Swap d first (first + i)) 0 i first) (first + x)
          = At d (first + x') := by
      intro x hx
      obtain ⟨k', h1, h2, e⟩ := hsd.1.2.2.2 (first + x) (by omega) (by omega)
      by_cases hk0 : k' = first
      · exact ⟨i, by omega, by rw [e, hk0, eL]⟩
      · refine ⟨k' - first, by omega, ?_⟩
        rw [e, eO k' hk0 (by omega)]
        congr 1
        omega
    have ih := heapSort_pop_spec hk hi first i
      (siftDown_func less (Swap d first (first + i)) 0 i first) (by omega)
      (by rw [hsd.1.length_eq, length_Swap]; exact hlen) hsd.2 ?_ ?_
    · refine ⟨?_, ih.2⟩
      exact ((Shuf.swap d (by omega) (by omega) (by omega) (by omega) hlen).trans
        (hsd.1.mono (le_refl _) (by omega))).trans ih.1
    · intro p q hp hpq hq
      rw [hfr p hp, hfr q (by omega)]
      by_cases hpi : p = first + i
      · by_cases hqi : q = first + i
        · rw [hpi, hqi]
        · rw [hpi, eR, eO q (by omega) hqi]
          have := hcross 0 (q - first) (by omega) (by omega) (by omega)
          have e : first + (q - first) = q := by omega
          rw [e] at this
          simpa using this
      · rw [eO p (by omega) hpi, eO q (by omega) (by omega)]
        exact hs p q (by omega) hpq hq
    · intro x y hx hy hyhi
      obtain ⟨x', hx', e⟩ := hreg x hx
      rw [e, hfr (first + y) (by omega)]
      by_cases hyi : y = i
      · rw [hyi, eR]
        exact hmax x' hx'
      · rw [eO (first + y) (by omega) (by omega)]
        exact hcross x' y hx' (by omega) hyhi

/-- `heapSort_func` sorts `data[a:b]` and moves nothing else. -/
theorem heapSort_func_spec (hk : ∀ x y, less x y = true ↔ key x < key y) (d : List α)
    (a b : Nat) (hab : a ≤ b) (hb : b ≤ d.length) :
    Shuf a b d (heapSort_func less d a b) ∧ SortedOn key (heapSort_func less d a b) a b := by
  unfold heapSort_func
  have e : a + (b - a) = b := by omega
  have hbuild := heapSort_build_spec less key hk (b - a) a ((b - a - 1) / 2 + 1) d
    (by omega) (by
      intro p c hp hc hpc
      omega)
  have hpop := heapSort_pop_spec less key hk (b - a) a (b - a)
    (heapSort_build less (b - a) a ((b - a - 1) / 2 + 1) d) (le_refl _)
    (by rw [hbuild.1.length_eq]; omega) hbuild.2
    (by
      intro p q hp hpq hq
      omega)
    (by
      intro x y hx hy hyhi
      omega)
  rw [e] at hbuild hpop
  exact ⟨hbuild.1.trans hpop.1, hpop.2⟩

end HeapSort

/-! ## Partitioning -/

section Partition

variable {α : Type} [Inhabited α] (less : α → α → Bool) (key : α → Int)

theorem partition_up_spec (hk : ∀ x y, less x y = true ↔ key x < key y) (d : List α)
    (a j : Nat) : ∀ (fuel i : Nat), j + 1 ≤ i + fuel → i ≤ j + 1 →
      i ≤ partition_up less d a j fuel i ∧ partition_up less d a j fuel i ≤ j + 1 ∧
      (∀ k, i ≤ k → k < partition_up less d a j fuel i → key (At d k) < key (At d a)) ∧
      (partition_up less d a j fuel i ≤ j →
        key (At d a) ≤ key (At d (partition_up less d a j fuel i)))
  | 0, i, hfuel, hij => by
    unfold partition_up
    exact ⟨le_refl _, hij, fun k h1 h2 => by omega, fun h => by omega⟩
  | fuel + 1, i, hfuel, hij => by
    unfold partition_up
    by_cases hc : (decide (i ≤ j) && less (At d i) (At d a)) = true
    · rw [if_pos hc]
      simp only [Bool.and_eq_true, decide_eq_true_eq] at hc
      have ih := partition_up_spec hk d a j fuel (i + 1) (by omega) (by omega)
      refine ⟨by omega, ih.2.1, ?_, ih.2.2.2⟩
      intro k h1 h2
      by_cases hki : k = i
      · rw [hki]
        exact (hk _ _).mp hc.2
      · exact ih.2.2.1 k (by omega) h2
    · rw [if_neg hc]
      simp only [Bool.and_eq_true, decide_eq_true_eq, not_and, Bool.not_eq_true] at hc
      refine ⟨le_refl _, hij, fun k h1 h2 => by omega, ?_⟩
      intro h
      have hnl : ¬ key (At d i) < key (At d a) := by
        intro hlt
        have := hc h
        rw [(hk _ _).mpr hlt] at this
        exact Bool.noConfusion this
      omega

theorem partition_down_spec (hk : ∀ x y, less x y = true ↔ key x < key y) (d : List α)
    (a i : Nat) (hi : 1 ≤ i) : ∀ (j : Nat), i ≤ j + 1 →
      partition_down less d a i j ≤ j ∧ i ≤ partition_down less d a i j + 1 ∧
      (∀ k, partition_down less d a i j < k → k ≤ j → key (At d a) ≤ key (At d k)) ∧
      (i ≤ partition_down less d a i j →
        key (At d (partition_down less d a i j)) < key (At d a))
  | 0, hij => by
    unfold partition_down
    exact ⟨le_refl _, hij, fun k h1 h2 => by omega, fun h => by omega⟩
  | j + 1, hij => by
    unfold partition_down
    by_cases hc : (decide (i ≤ j + 1) && !less (At d (j + 1)) (At d a)) = true
    · rw [if_pos hc]
      simp only [Bool.and_eq_true, decide_eq_true_eq, Bool.not_eq_true'] at hc
      have ih := partition_down_spec hk d a i hi j hc.1
      refine ⟨by omega, ih.2.1, ?_, ih.2.2.2⟩
      intro k h1 h2
      by_cases hkj : k = j + 1
      · rw [hkj]
        have hnl : ¬ key (At d (j + 1)) < key (At d a) := by
          intro hlt
          have := hc.2
          rw [(hk _ _).mpr hlt] at this
          exact Bool.noConfusion this
        omega
      · exact ih.2.2.1 k h1 (by omega)
    · rw [if_neg hc]
      simp only [Bool.and_eq_true, decide_eq_true_eq, Bool.not_eq_true', not_and,
        Bool.not_eq_false] at hc
      exact ⟨le_refl _, by omega, fun k h1 h2 => by omega, fun h => (hk _ _).mp (hc h)⟩

theorem partition_loop_spec (hk : ∀ x y, less x y = true ↔ key x < key y) (a b : Nat) :
    ∀ (fuel : Nat) (d : List α) (i j : Nat), a + 1 ≤ i → i ≤ j + 1 → j < b → b ≤ d.length →
      j + 1 ≤ i + fuel →
      (∀ k, a < k → k < i → key (At d k) < key (At d a)) →
      (∀ k, j < k → k < b → key (At d a) ≤ key (At d k)) →
      Shuf (a + 1) b d (partition_loop less a fuel d i j).1 ∧
      a ≤ (partition_loop less a fuel d i j).2 ∧ (partition_loop less a fuel d i j).2 < b ∧
      (∀ k, a < k → k ≤ (partition_loop less a fuel d i j).2 →
        key (At (partition_loop less a fuel d i j).1 k)
          < key (At (partition_loop less a fuel d i j).1 a)) ∧
      (∀ k, (partition_loop less a fuel d i j).2 < k → k < b →
        key (At (partition_loop less a fuel d i j).1 a)
          ≤ key (At (partition_loop less a fuel d i j).1 k))
  | 0, d, i, j, hai, hij, hjb, hlen, hfuel, hlo, hhi => by
    unfold partition_loop
    exact ⟨Shuf.refl _ _ _, by omega, hjb, fun k h1 h2 => hlo k h1 (by omega), hhi⟩
  | fuel + 1, d, i, j, hai, hij, hjb, hlen, hfuel, hlo, hhi => by
    unfold partition_loop
    simp only []
    have hup := partition_up_spec less key hk d a j (j + 1 - i) i (by omega) hij
    generalize partition_up less d a j (j + 1 - i) i = i' at hup ⊢
    have hdown := partition_down_spec less key hk d a i' (by omega) j hup.2.1
    generalize partition_down less d a i' j = j' at hdown ⊢
    by_cases hc : i' > j'
    · rw [if_pos hc]
      refine ⟨Shuf.refl _ _ _, by omega, by omega, ?_, ?_⟩
      · intro k h1 h2
        by_cases hki : k < i
        · exact hlo k h1 hki
        · exact hup.2.2.1 k (by omega) (by omega)
      · intro k h1 h2
        by_cases hkj : k ≤ j
        · exact hdown.2.2.1 k h1 hkj
        · exact hhi k (by omega) h2
    · rw [if_neg hc]
      have hij' : i' ≤ j' := by omega
      have h1 := hup.2.2.2 (by omega)
      have h2 := hdown.2.2.2 hij'
      have hne : i' ≠ j' := by
        intro e
        rw [e] at h1
        omega
      have hli : i' < d.length := by omega
      have hlj : j' < d.length := by omega
      have eL : At (Swap d i' j') i' = At d j' := At_Swap_left d hli hlj
      have eR : At (Swap d i' j') j' = At d i' := At_Swap_right d hli hlj
      have eO : ∀ k, k ≠ i' → k ≠ j' → At (Swap d i' j') k = At d k :=
        fun k h1 h2 => At_Swap_other d hli hlj h1 h2
      have ih := partition_loop_spec hk a b fuel (Swap d i' j') (i' + 1) (j' - 1) (by omega)
        (by omega) (by omega) (by rw [length_Swap]; exact hlen) (by omega)
        (by
          intro k hk1 hk2
          rw [eO a (by omega) (by omega)]
          by_cases hki : k = i'
          · rw [hki, eL]
            exact h2
          · rw [eO k hki (by omega)]
            by_cases hki2 : k < i
            · exact hlo k hk1 hki2
            · exact hup.2.2.1 k (by omega) (by omega))
        (by
          intro k hk1 hk2
          rw [eO a (by omega) (by omega)]
          by_cases hkj : k = j'
          · rw [hkj, eR]
            exact h1
          · rw [eO k (by omega) hkj]
            by_cases hkj2 : k ≤ j
            · exact hdown.2.2.1 k (by omega) hkj2
            · exact hhi k (by omega) hk2)
      refine ⟨?_, ih.2⟩
      exact (Shuf.swap d (by omega) (by omega) (by omega) (by omega) hlen).trans ih.1

/-- The first partitioning step of `partition_func` is one more round of its loop. -/
theorem partition_func_eq (d : List α) (a b pivot : Nat) :
    (partition_func less d a b pivot).1
      = Swap (partition_loop less a (b - a + 1) (Swap d a pivot) (a + 1) (b - 1)).1
          (partition_loop less a (b - a + 1) (Swap d a pivot) (a + 1) (b - 1)).2 a ∧
    (partition_func less d a b pivot).2.1
      = (partition_loop less a (b - a + 1) (Swap d a pivot) (a + 1) (b - 1)).2 := by
  unfold partition_func
  rw [partition_loop]
  simp only []
  split <;> simp

/-- `partition_func` leaves the pivot at `newpivot`, smaller elements before it and the
others after it. -/
theorem partition_func_spec (hk : ∀ x y, less x y = true ↔ key x < key y) (d : List α)
    (a b pivot : Nat) (hap : a ≤ pivot) (hpb : pivot < b) (hb : b ≤ d.length) :
    Shuf a b d (partition_func less d a b pivot).1 ∧
    a ≤ (partition_func less d a b pivot).2.1 ∧ (partition_func less d a b pivot).2.1 < b ∧
    (∀ k, a ≤ k → k < (partition_func less d a b pivot).2.1 →
      key (At (partition_func less d a b pivot).1 k)
        < key (At (partition_func less d a b pivot).1 (partition_func less d a b pivot).2.1)) ∧
    (∀ k, (partition_func less d a b pivot).2.1 < k → k < b →
      key (At (partition_func less d a b pivot).1 (partition_func less d a b pivot).2.1)
        ≤ key (At (partition_func less d a b pivot).1 k)) := by
  obtain ⟨e1, e2⟩ := partition_func_eq less d a b pivot
  rw [e1, e2]
  have h0 : Shuf a b d (Swap d a pivot) :=
    Shuf.swap d (le_refl _) (by omega) hap hpb hb
  have hl := partition_loop_spec less key hk a b (b - a + 1) (Swap d a pivot) (a + 1) (b - 1)
    (le_refl _) (by omega) (by omega) (by rw [length_Swap]; exact hb) (by omega)
    (fun k h1 h2 => by omega) (fun k h1 h2 => by omega)
  generalize partition_loop less a (b - a + 1) (Swap d a pivot) (a + 1) (b - 1) = r at hl ⊢
  obtain ⟨hs, hma, hmb, hlo, hhi⟩ := hl
  have hlen : r.1.length = d.length := by rw [hs.length_eq, length_Swap]
  have hli : r.2 < r.1.length := by omega
  have hla : a < r.1.length := by omega
  have eL : At (Swap r.1 r.2 a) r.2 = At r.1 a := At_Swap_left r.1 hli hla
  have eR : At (Swap r.1 r.2 a) a = At r.1 r.2 := At_Swap_right r.1 hli hla
  have eO : ∀ k, k ≠ r.2 → k ≠ a → At (Swap r.1 r.2 a) k = At r.1 k :=
    fun k h1 h2 => At_Swap_other r.1 hli hla h1 h2
  refine ⟨?_, hma, hmb, ?_, ?_⟩
  · exact (h0.trans (hs.mono (by omega) (le_refl _))).trans
      (Shuf.swap r.1 hma hmb (le_refl _) (by omega) (by omega))
  · intro k h1 h2
    rw [eL]
    by_cases hka : k = a
    · rw [hka, eR]
      exact hlo r.2 (by omega) (le_refl _)
    · rw [eO k (by omega) hka]
      exact hlo k (by omega) (by omega)
  · intro k h1 h2
    rw [eL, eO k (by omega) (by omega)]
    exact hhi k h1 h2

theorem partitionEqual_up_spec (hk : ∀ x y, less x y = true ↔ key x < key y) (d : List α)
    (a j : Nat) : ∀ (fuel i : Nat), j + 1 ≤ i + fuel → i ≤ j + 1 →
      i ≤ partitionEqual_up less d a j fuel i ∧ partitionEqual_up less d a j fuel i ≤ j + 1 ∧
      (∀ k, i ≤ k → k < partitionEqual_up less d a j fuel i → key (At d k) ≤ key (At d a)) ∧
      (partitionEqual_up less d a j fuel i ≤ j →
        key (At d a) < key (At d (partitionEqual_up less d a j fuel i)))
  | 0, i, hfuel, hij => by
    unfold partitionEqual_up
    exact ⟨le_refl _, hij, fun k h1 h2 => by omega, fun h => by omega⟩
  | fuel + 1, i, hfuel, hij => by
    unfold partitionEqual_up
    by_cases hc : (decide (i ≤ j) && !less (At d a) (At d i)) = true
    · rw [if_pos hc]
      simp only [Bool.and_eq_true, decide_eq_true_eq, Bool.not_eq_true'] at hc
      have ih := partitionEqual_up_spec hk d a j fuel (i + 1) (by omega) (by omega)
      refine ⟨by omega, ih.2.1, ?_, ih.2.2.2⟩
      intro k h1 h2
      by_cases hki : k = i
      · rw [hki]
        have hnl : ¬ key (At d a) < key (At d i) := by
          intro hlt
          have := hc.2
          rw [(hk _ _).mpr hlt] at this
          exact Bool.noConfusion this
        omega
      · exact ih.2.2.1 k (by omega) h2
    · rw [if_neg hc]
      simp only [Bool.and_eq_true, decide_eq_true_eq, Bool.not_eq_true', not_and,
        Bool.not_eq_false] at hc
      exact ⟨le_refl _, hij, fun k h1 h2 => by omega, fun h => (hk _ _).mp (hc h)⟩

theorem partitionEqual_down_spec (hk : ∀ x y, less x y = true ↔ key x < key y) (d : List α)
    (a i : Nat) (hi : 1 ≤ i) : ∀ (j : Nat), i ≤ j + 1 →
      partitionEqual_down less d a i j ≤ j ∧ i ≤ partitionEqual_down less d a i j + 1 ∧
      (∀ k, partitionEqual_down less d a i j < k → k ≤ j → key (At d a) < key (At d k)) ∧
      (i ≤ partitionEqual_down less d a i j →
        key (At d (partitionEqual_down less d a i j)) ≤ key (At d a))
  | 0, hij => by
    unfold partitionEqual_down
    exact ⟨le_refl _, hij, fun k h1 h2 => by omega, fun h => by omega⟩
  | j + 1, hij => by
    unfold partitionEqual_down
    by_cases hc : (decide (i ≤ j + 1) && less (At d a) (At d (j + 1))) = true
    · rw [if_pos hc]
      simp only [Bool.and_eq_true, decide_eq_true_eq] at hc
      have ih := partitionEqual_down_spec hk d a i hi j hc.1
      refine ⟨by omega, ih.2.1, ?_, ih.2.2.2⟩
      intro k h1 h2
      by_cases hkj : k = j + 1
      · rw [hkj]
        exact (hk _ _).mp hc.2
      · exact ih.2.2.1 k h1 (by omega)
    · rw [if_neg hc]
      simp only [Bool.and_eq_true, decide_eq_true_eq, not_and, Bool.not_eq_true] at hc
      refine ⟨le_refl _, by omega, fun k h1 h2 => by omega, ?_⟩
      intro h
      have hnl : ¬ key (At d a) < key (At d (j + 1)) := by
        intro hlt
        have := hc h
        rw [(hk _ _).mpr hlt] at this
        exact Bool.noConfusion this
      omega

theorem partitionEqual_loop_spec (hk : ∀ x y, less x y = true ↔ key x < key y)
    (a b : Nat) : ∀ (fuel : Nat) (d : List α) (i j : Nat), a + 1 ≤ i → i ≤ j + 1 → j < b →
      b ≤ d.length → j + 1 ≤ i + fuel →
      (∀ k, a < k → k < i → key (At d k) ≤ key (At d a)) →
      (∀ k, j < k → k < b → key (At d a) < key (At d k)) →
      Shuf (a + 1) b d (partitionEqual_loop less a fuel d i j).1 ∧
      a + 1 ≤ (partitionEqual_loop less a fuel d i j).2 ∧
      (partitionEqual_loop less a fuel d i j).2 ≤ b ∧
      (∀ k, a < k → k < (partitionEqual_loop less a fuel d i j).2 →
        key (At (partitionEqual_loop less a fuel d i j).1 k)
          ≤ key (At (partitionEqual_loop less a fuel d i j).1 a)) ∧
      (∀ k, (partitionEqual_loop less a fuel d i j).2 ≤ k → k < b →
        key (At (partitionEqual_loop less a fuel d i j).1 a)
          < key (At (partitionEqual_loop less a fuel d i j).1 k))
  | 0, d, i, j, hai, hij, hjb, hlen, hfuel, hlo, hhi => by
    unfold partitionEqual_loop
    exact ⟨Shuf.refl _ _ _, hai, by omega, hlo, fun k h1 h2 => hhi k (by omega) h2⟩
  | fuel + 1, d, i, j, hai, hij, hjb, hlen, hfuel, hlo, hhi => by
    unfold partitionEqual_loop
    simp only []
    have hup := partitionEqual_up_spec less key hk d a j (j + 1 - i) i (by omega) hij
    generalize partitionEqual_up less d a j (j + 1 - i) i = i' at hup ⊢
    have hdown := partitionEqual_down_spec less key hk d a i' (by omega) j hup.2.1
    generalize partitionEqual_down less d a i' j = j' at hdown ⊢
    by_cases hc : i' > j'
    · rw [if_pos hc]
      refine ⟨Shuf.refl _ _ _, by omega, by omega, ?_, ?_⟩
      · intro k h1 h2
        by_cases hki : k < i
        · exact hlo k h1 hki
        · exact hup.2.2.1 k (by omega) (by omega)
      · intro k h1 h2
        by_cases hkj : k ≤ j
        · exact hdown.2.2.1 k (by omega) hkj
        · exact hhi k (by omega) h2
    · rw [if_neg hc]
      have hij' : i' ≤ j' := by omega
      have h1 := hup.2.2.2 (by omega)
      have h2 := hdown.2.2.2 hij'
      have hne : i' ≠ j' := by
        intro e
        rw [e] at h1
        omega
      have hli : i' < d.length := by omega
      have hlj : j' < d.length := by omega
      have eL : At (Swap d i' j') i' = At d j' := At_Swap_left d hli hlj
      have eR : At (Swap d i' j') j' = At d i' := At_Swap_right d hli hlj
      have eO : ∀ k, k ≠ i' → k ≠ j' → At (Swap d i' j') k = At d k :=
        fun k h1 h2 => At_Swap_other d hli hlj h1 h2
      have ih := partitionEqual_loop_spec hk a b fuel (Swap d i' j') (i' + 1) (j' - 1)
        (by omega) (by omega) (by omega) (by rw [length_Swap]; exact hlen) (by omega)
        (by
          intro k hk1 hk2
          rw [eO a (by omega) (by omega)]
          by_cases hki : k = i'
          · rw [hki, eL]
            exact h2
          · rw [eO k hki (by omega)]
            by_cases hki2 : k < i
            · exact hlo k hk1 hki2
            · exact hup.2.2.1 k (by omega) (by omega))
        (by
          intro k hk1 hk2
          rw [eO a (by omega) (by omega)]
          by_cases hkj : k = j'
          · rw [hkj, eR]
            exact h1
          · rw [eO k (by omega) hkj]
            by_cases hkj2 : k ≤ j
            · exact hdown.2.2.1 k (by omega) hkj2
            · exact hhi k (by omega) hk2)
      refine ⟨?_, ih.2⟩
      exact (Shuf.swap d (by omega) (by omega) (by omega) (by omega) hlen).trans ih.1

/-- `partitionEqual_func` puts the elements not greater than the pivot before `newpivot` and
the greater ones from `newpivot` on. -/
theorem partitionEqual_func_spec (hk : ∀ x y, less x y = true ↔ key x < key y) (d : List α)
    (a b pivot : Nat) (hap : a ≤ pivot) (hpb : pivot < b) (hb : b ≤ d.length) :
    Shuf a b d (partitionEqual_func less d a b pivot).1 ∧
    a + 1 ≤ (partitionEqual_func less d a b pivot).2 ∧
    (partitionEqual_func less d a b pivot).2 ≤ b ∧
    (∀ k, a ≤ k → k < (partitionEqual_func less d a b pivot).2 →
      key (At (partitionEqual_func less d a b pivot).1 k) ≤ key (At d pivot)) ∧
    (∀ k, (partitionEqual_func less d a b pivot).2 ≤ k → k < b →
      key (At d pivot) < key (At (partitionEqual_func less d a b pivot).1 k)) := by
  unfold partitionEqual_func
  have h0 : Shuf a b d (Swap d a pivot) :=
    Shuf.swap d (le_refl _) (by omega) hap hpb hb
  have hpiv : At (Swap d a pivot) a = At d pivot := At_Swap_left d (by omega) (by omega)
  have hl := partitionEqual_loop_spec less key hk a b (b - a) (Swap d a pivot) (a + 1) (b - 1)
    (le_refl _) (by omega) (by omega) (by rw [length_Swap]; exact hb) (by omega)
    (fun k h1 h2 => by omega) (fun k h1 h2 => by omega)
  generalize partitionEqual_loop less a (b - a) (Swap d a pivot) (a + 1) (b - 1) = r at hl ⊢
  obtain ⟨hs, hma, hmb, hlo, hhi⟩ := hl
  have hfa : At r.1 a = At d pivot := by
    rw [hs.frame (Or.inl (by omega)), hpiv]
  refine ⟨h0.trans (hs.mono (by omega) (le_refl _)), hma, hmb, ?_, ?_⟩
  · intro k h1 h2
    by_cases hka : k = a
    · rw [hka, hfa]
    · rw [← hfa]
      exact hlo k (by omega) h2
  · intro k h1 h2
    rw [← hfa]
    exact hhi k h1 h2

end Partition

/-! ## Partial insertion sort, pivot choice and pattern breaking -/

section PdqParts

variable {α : Type} [Inhabited α] (less : α → α → Bool) (key : α → Int)

theorem sortedRun_spec (hk : ∀ x y, less x y = true ↔ key x < key y) (d : List α)
    (a b : Nat) : ∀ (fuel i : Nat), b ≤ i + fuel → a + 1 ≤ i → i ≤ b → SortedOn key d a i →
      i ≤ sortedRun less d b fuel i ∧ sortedRun less d b fuel i ≤ b ∧
      SortedOn key d a (sortedRun less d b fuel i) ∧
      (sortedRun less d b fuel i < b →
        key (At d (sortedRun less d b fuel i)) < key (At d (sortedRun less d b fuel i - 1)))
  | 0, i, hfuel, hai, hib, hs => by
    unfold sortedRun
    exact ⟨le_refl _, hib, hs, fun h => by omega⟩
  | fuel + 1, i, hfuel, hai, hib, hs => by
    unfold sortedRun
    by_cases hc : (decide (i < b) && !less (At d i) (At d (i - 1))) = true
    · rw [if_pos hc]
      simp only [Bool.and_eq_true, decide_eq_true_eq, Bool.not_eq_true'] at hc
      have hnl : ¬ key (At d i) < key (At d (i - 1)) := by
        intro hlt
        have := hc.2
        rw [(hk _ _).mpr hlt] at this
        exact Bool.noConfusion this
      have hs' : SortedOn key d a (i + 1) := by
        intro p q hp hpq hq
        by_cases hqi : q = i
        · by_cases hpi : p = i
          · rw [hpi, hqi]
          · have := hs p (i - 1) hp (by omega) (by omega)
            rw [hqi]
            omega
        · exact hs p q hp hpq (by omega)
      have ih := sortedRun_spec hk d a b fuel (i + 1) (by omega) (by omega) (by omega) hs'
      exact ⟨by omega, ih.2.1, ih.2.2.1, ih.2.2.2⟩
    · rw [if_neg hc]
      simp only [Bool.and_eq_true, decide_eq_true_eq, Bool.not_eq_true', not_and,
        Bool.not_eq_false] at hc
      exact ⟨le_refl _, hib, hs, fun h => (hk _ _).mp (hc h)⟩

theorem shiftLeft_loop_spec (hk : ∀ x y, less x y = true ↔ key x < key y) (a i : Nat) :
    ∀ (j : Nat) (d : List α), a ≤ j → j ≤ i → i < d.length → InsInv key d a j i →
      (0 < a → key (At d (a - 1)) ≤ key (At d j)) →
      Shuf a (j + 1) d (shiftLeft_loop less j d) ∧
      SortedOn key (shiftLeft_loop less j d) a (i + 1)
  | 0, d, _, _, _, hinv, _ => by
    refine ⟨Shuf.refl _ _ _, ?_⟩
    intro p q hp hpq hq
    show key (At d p) ≤ key (At d q)
    by_cases hp0 : p = 0
    · by_cases hq0 : q = 0
      · rw [hp0, hq0]
      · rw [hp0]
        exact hinv.2 q (by omega) (by omega)
    · exact hinv.1 p q hp hpq (by omega) hp0 (by omega)
  | j + 1, d, haj, hji, hlen, hinv, hlb => by
    unfold shiftLeft_loop
    by_cases hc : less (At d (j + 1)) (At d j) = true
    · simp only [hc, Bool.not_true, Bool.false_eq_true, if_false]
      have hlt : key (At d (j + 1)) < key (At d j) := (hk _ _).mp hc
      have haj' : a ≤ j := by
        by_contra hcon
        have ha : a = j + 1 := by omega
        have := hlb (by omega)
        rw [ha] at this
        simp only [Nat.add_sub_cancel] at this
        omega
      have hj1 : j + 1 < d.length := by omega
      have hj0 : j < d.length := by omega
      have eL : At (Swap d (j + 1) j) (j + 1) = At d j := At_Swap_left d hj1 hj0
      have eR : At (Swap d (j + 1) j) j = At d (j + 1) := At_Swap_right d hj1 hj0
      have eO : ∀ k, k ≠ j + 1 → k ≠ j → At (Swap d (j + 1) j) k = At d k :=
        fun k h1 h2 => At_Swap_other d hj1 hj0 h1 h2
      have hinv' : InsInv key (Swap d (j + 1) j) a j i := by
        constructor
        · intro p q hp hpq hq hpj hqj
          by_cases hp1 : p = j + 1
          · by_cases hq1 : q = j + 1
            · rw [hp1, hq1]
            · rw [hp1, eL, eO q hq1 hqj]
              exact hinv.1 j q (by omega) (by omega) hq (by omega) hq1
          · by_cases hq1 : q = j + 1
            · rw [hq1, eL, eO p hp1 hpj]
              exact hinv.1 p j hp (by omega) (by omega) hp1 (by omega)
            · rw [eO p hp1 hpj, eO q hq1 hqj]
              exact hinv.1 p q hp hpq hq hp1 hq1
        · intro q hjq hq
          rw [eR]
          by_cases hq1 : q = j + 1
          · rw [hq1, eL]
            exact le_of_lt hlt
          · rw [eO q hq1 (by omega)]
            exact hinv.2 q (by omega) hq
      have ih := shiftLeft_loop_spec hk a i j (Swap d (j + 1) j) haj' (by omega)
        (by rw [length_Swap]; exact hlen) hinv'
        (by
          intro ha
          rw [eR, eO (a - 1) (by omega) (by omega)]
          exact hlb ha)
      refine ⟨?_, ih.2⟩
      exact (Shuf.swap (a := a) (b := j + 1 + 1) d (by omega) (by omega) (by omega) (by omega)
        (by omega)).trans (ih.1.mono (le_refl _) (by omega))
    · simp only [hc, Bool.not_false, if_true]
      refine ⟨Shuf.refl _ _ _, ?_⟩
      have hnl : ¬ key (At d (j + 1)) < key (At d j) := fun h => hc ((hk _ _).mpr h)
      intro p q hp hpq hq
      by_cases hpj : p = j + 1
      · by_cases hqj : q = j + 1
        · rw [hpj, hqj]
        · rw [hpj]
          exact hinv.2 q (by omega) (by omega)
      · by_cases hqj : q = j + 1
        · have h1 : key (At d p) ≤ key (At d j) := by
            by_cases hpj' : p = j
            · rw [hpj']
            · exact hinv.1 p j hp (by omega) (by omega) hpj (by omega)
          rw [hqj]
          omega
        · exact hinv.1 p q hp hpq (by omega) hpj hqj

theorem shiftRight_loop_spec (lo b : Nat) : ∀ (fuel : Nat) (d : List α) (j : Nat),
    lo + 1 ≤ j → b ≤ d.length → Shuf lo b d (shiftRight_loop less b fuel d j)
  | 0, d, _, _, _ => Shuf.refl _ _ _
  | fuel + 1, d, j, hj, hlen => by
    unfold shiftRight_loop
    by_cases hjb : j < b
    · rw [if_pos hjb]
      by_cases hc : (!less (At d j) (At d (j - 1))) = true
      · rw [if_pos hc]
        exact Shuf.refl _ _ _
      · rw [if_neg hc]
        exact (Shuf.swap d (by omega) hjb (by omega) (by omega) hlen).trans
          (shiftRight_loop_spec lo b fuel _ (j + 1) (by omega)
            (by rw [length_Swap]; exact hlen))
    · rw [if_neg hjb]
      exact Shuf.refl _ _ _

theorem partialInsertionSort_loop_spec (hk : ∀ x y, less x y = true ↔ key x < key y)
    (a b : Nat) : ∀ (steps : Nat) (d : List α) (i : Nat), a + 1 ≤ i → i ≤ b → b ≤ d.length →
      SortedOn key d a i → LowerBound key d a b →
      Shuf a b d (partialInsertionSort_loop less a b steps d i).1 ∧
      ((partialInsertionSort_loop less a b steps d i).2 = true →
        SortedOn key (partialInsertionSort_loop less a b steps d i).1 a b)
  | 0, d, i, _, _, _, _, _ => by
    unfold partialInsertionSort_loop
    exact ⟨Shuf.refl _ _ _, fun h => Bool.noConfusion h⟩
  | steps + 1, d, i, hai, hib, hlen, hs, hlb => by
    unfold partialInsertionSort_loop
    simp only []
    have hrun := sortedRun_spec less key hk d a b (b - i) i (by omega) hai hib hs
    generalize sortedRun less d b (b - i) i = i' at hrun ⊢
    by_cases hib' : i' = b
    · rw [if_pos hib']
      refine ⟨Shuf.refl _ _ _, fun _ => ?_⟩
      rw [← hib']
      exact hrun.2.2.1
    · rw [if_neg hib']
      by_cases hshort : b - a < 50
      · rw [if_pos hshort]
        exact ⟨Shuf.refl _ _ _, fun h => Bool.noConfusion h⟩
      · rw [if_neg hshort]
        have hi'b : i' < b := by omega
        have hl1 : i' < d.length := by omega
        have hl0 : i' - 1 < d.length := by omega
        have eL : At (Swap d i' (i' - 1)) i' = At d (i' - 1) := At_Swap_left d hl1 hl0
        have eR : At (Swap d i' (i' - 1)) (i' - 1) = At d i' := At_Swap_right d hl1 hl0
        have eO : ∀ k, k ≠ i' → k ≠ i' - 1 → At (Swap d i' (i' - 1)) k = At d k :=
          fun k h1 h2 => At_Swap_other d hl1 hl0 h1 h2
        have hsw : Shuf a b d (Swap d i' (i' - 1)) :=
          Shuf.swap d (by omega) hi'b (by omega) (by omega) hlen
        -- the shift to the left
        obtain ⟨d₂, hd₂, hs₂, hsort₂⟩ : ∃ d₂,
            (if i' - a ≥ 2 then shiftLeft_loop less (i' - 1) (Swap d i' (i' - 1))
              else Swap d i' (i' - 1)) = d₂ ∧
            Shuf a b (Swap d i' (i' - 1)) d₂ ∧ SortedOn key d₂ a i' := by
          by_cases h2 : i' - a ≥ 2
          · rw [if_pos h2]
            have hinv : InsInv key (Swap d i' (i' - 1)) a (i' - 1) (i' - 1) := by
              constructor
              · intro p q hp hpq hq hpj hqj
                rw [eO p (by omega) hpj, eO q (by omega) hqj]
                exact hrun.2.2.1 p q hp hpq (by omega)
              · intro q h1 h2
                omega
            have hsl := shiftLeft_loop_spec less key hk a (i' - 1) (i' - 1)
              (Swap d i' (i' - 1)) (by omega) (le_refl _) (by rw [length_Swap]; omega) hinv
              (by
                intro ha
                rw [eR, eO (a - 1) (by omega) (by omega)]
                exact hlb ha i' (by omega) hi'b)
            have e : i' - 1 + 1 = i' := by omega
            rw [e] at hsl
            exact ⟨_, rfl, hsl.1.mono (le_refl _) (by omega), hsl.2⟩
          · rw [if_neg h2]
            refine ⟨_, rfl, Shuf.refl _ _ _, ?_⟩
            intro p q hp hpq hq
            have : p = q := by omega
            rw [this]
        rw [hd₂]
        have hlen₂ : d₂.length = d.length := by rw [hs₂.length_eq, length_Swap]
        -- the shift to the right
        obtain ⟨d₃, hd₃, hs₃⟩ : ∃ d₃,
            (if b - i' ≥ 2 then shiftRight_loop less b (b - (i' + 1)) d₂ (i' + 1) else d₂) = d₃ ∧
            Shuf i' b d₂ d₃ := by
          by_cases h2 : b - i' ≥ 2
          · rw [if_pos h2]
            exact ⟨_, rfl, shiftRight_loop_spec less i' b _ d₂ (i' + 1) (le_refl _)
              (by rw [hlen₂]; exact hlen)⟩
          · rw [if_neg h2]
            exact ⟨_, rfl, Shuf.refl _ _ _⟩
        rw [hd₃]
        have hall : Shuf a b d d₃ := (hsw.trans hs₂).trans (hs₃.mono (by omega) (le_refl _))
        have hsort₃ : SortedOn key d₃ a i' := by
          intro p q hp hpq hq
          rw [hs₃.frame (Or.inl (by omega)), hs₃.frame (Or.inl (by omega))]
          exact hsort₂ p q hp hpq hq
        have ih := partialInsertionSort_loop_spec hk a b steps d₃ i' (by omega) (by omega)
          (by rw [hall.length_eq]; exact hlen) hsort₃ (hlb.of_Shuf hall)
        exact ⟨hall.trans ih.1, ih.2⟩

/-- `partialInsertionSort_func` only rearranges `data[a:b]`, and when it reports true the
range is sorted. -/
theorem partialInsertionSort_func_spec (hk : ∀ x y, less x y = true ↔ key x < key y)
    (d : List α) (a b : Nat) (hab : a < b) (hb : b ≤ d.length) (hlb : LowerBound key d a b) :
    Shuf a b d (partialInsertionSort_func less d a b).1 ∧
    ((partialInsertionSort_func less d a b).2 = true →
      SortedOn key (partialInsertionSort_func less d a b).1 a b) := by
  unfold partialInsertionSort_func
  refine partialInsertionSort_loop_spec less key hk a b 5 d (a + 1) (le_refl _) hab hb ?_ hlb
  intro p q hp hpq hq
  have : p = q := by omega
  rw [this]

/-! ### Pivot choice -/

theorem order2_func_cases (d : List α) (a b swaps : Nat) :
    ((order2_func less d a b swaps).1 = a ∧ (order2_func less d a b swaps).2.1 = b) ∨
    ((order2_func less d a b swaps).1 = b ∧ (order2_func less d a b swaps).2.1 = a) := by
  unfold order2_func
  split
  · exact Or.inr ⟨rfl, rfl⟩
  · exact Or.inl ⟨rfl, rfl⟩

theorem median_func_mem (d : List α) (a b c swaps : Nat) :
    (median_func less d a b c swaps).1 = a ∨ (median_func less d a b c swaps).1 = b ∨
    (median_func less d a b c swaps).1 = c := by
  unfold median_func
  simp only []
  have h1 := order2_func_cases less d a b swaps
  generalize order2_func less d a b swaps = r₁ at h1 ⊢
  have h2 := order2_func_cases less d r₁.2.1 c r₁.2.2
  generalize order2_func less d r₁.2.1 c r₁.2.2 = r₂ at h2 ⊢
  have h3 := order2_func_cases less d r₁.1 r₂.1 r₂.2.2
  generalize order2_func less d r₁.1 r₂.1 r₂.2.2 = r₃ at h3 ⊢
  rcases h1 with ⟨e1, e2⟩ | ⟨e1, e2⟩ <;> rcases h2 with ⟨e3, e4⟩ | ⟨e3, e4⟩ <;>
    rcases h3 with ⟨e5, e6⟩ | ⟨e5, e6⟩ <;> simp_all

theorem medianAdjacent_func_mem (d : List α) (a swaps : Nat) :
    (medianAdjacent_func less d a swaps).1 = a - 1 ∨ (medianAdjacent_func less d a swaps).1 = a ∨
    (medianAdjacent_func less d a swaps).1 = a + 1 :=
  median_func_mem less d (a - 1) a (a + 1) swaps

/-- The pivot chosen by `choosePivot_func` lies in `data[a:b]`. -/
theorem choosePivot_func_bounds (d : List α) (a b : Nat) (hab : a < b) :
    a ≤ (choosePivot_func less d a b).1 ∧ (choosePivot_func less d a b).1 < b := by
  have hfst : ∀ (r : Nat × Nat),
      (if r.2 = 0 then (r.1, sortedHint.increasingHint)
        else if r.2 = 4 * 3 then (r.1, sortedHint.decreasingHint)
        else (r.1, sortedHint.unknownHint)).1 = r.1 := by
    intro r
    split
    · rfl
    · split <;> rfl
  unfold choosePivot_func
  simp only []
  rw [hfst]
  by_cases h8 : b - a ≥ 8
  · rw [if_pos h8]
    by_cases h50 : b - a ≥ 50
    · rw [if_pos h50]
      have hi := medianAdjacent_func_mem less d (a + (b - a) / 4 * 1) 0
      generalize medianAdjacent_func less d (a + (b - a) / 4 * 1) 0 = ri at hi ⊢
      have hj := medianAdjacent_func_mem less d (a + (b - a) / 4 * 2) ri.2
      generalize medianAdjacent_func less d (a + (b - a) / 4 * 2) ri.2 = rj at hj ⊢
      have hk' := medianAdjacent_func_mem less d (a + (b - a) / 4 * 3) rj.2
      generalize medianAdjacent_func less d (a + (b - a) / 4 * 3) rj.2 = rk at hk' ⊢
      have hm := median_func_mem less d ri.1 rj.1 rk.1 rk.2
      generalize median_func less d ri.1 rj.1 rk.1 rk.2 = rm at hm ⊢
      omega
    · rw [if_neg h50]
      have hm := median_func_mem less d (a + (b - a) / 4 * 1) (a + (b - a) / 4 * 2)
        (a + (b - a) / 4 * 3) 0
      generalize median_func less d (a + (b - a) / 4 * 1) (a + (b - a) / 4 * 2)
        (a + (b - a) / 4 * 3) 0 = rm at hm ⊢
      omega
  · rw [if_neg h8]
    simp only []
    omega

/-! ### Reversal and pattern breaking -/

omit [Inhabited α] in
theorem bits_Len_pow_le (n : Nat) (hn : 0 < n) : 2 ^ bits_Len n ≤ 2 * n := by
  unfold bits_Len
  rw [if_neg (by omega), pow_succ]
  have := Nat.log2_self_le (n := n) (by omega)
  omega

theorem reverseRange_loop_spec (a b : Nat) : ∀ (fuel : Nat) (d : List α) (i j : Nat),
    a ≤ i → j < b → b ≤ d.length → Shuf a b d (reverseRange_loop fuel d i j)
  | 0, d, _, _, _, _, _ => Shuf.refl _ _ _
  | fuel + 1, d, i, j, hi, hj, hlen => by
    unfold reverseRange_loop
    by_cases hc : i < j
    · rw [if_pos hc]
      exact (Shuf.swap d hi (by omega) (by omega) hj hlen).trans
        (reverseRange_loop_spec a b fuel _ (i + 1) (j - 1) (by omega) (by omega)
          (by rw [length_Swap]; exact hlen))
    · rw [if_neg hc]
      exact Shuf.refl _ _ _

theorem reverseRange_func_spec (d : List α) (a b : Nat) (hab : a < b) (hb : b ≤ d.length) :
    Shuf a b d (reverseRange_func d a b) :=
  reverseRange_loop_spec a b (b - a) d a (b - 1) (le_refl _) (by omega) hb

theorem breakPatterns_loop_spec (a length modulus : Nat) (h8 : 8 ≤ length)
    (hmod : modulus ≤ 2 * length) : ∀ (fuel i random : Nat) (d : List α), i + fuel ≤ 3 →
      a + length ≤ d.length →
      Shuf a (a + length) d
        (breakPatterns_loop a length modulus (a + (length / 4) * 2 - 1) fuel i random d)
  | 0, _, _, d, _, _ => Shuf.refl _ _ _
  | fuel + 1, i, random, d, hi, hlen => by
    unfold breakPatterns_loop
    simp only []
    have hand : Nat.land (xorshift_Next random) (modulus - 1) ≤ modulus - 1 := Nat.and_le_right
    generalize Nat.land (xorshift_Next random) (modulus - 1) = other at hand ⊢
    have hother : (if other ≥ length then other - length else other) < length := by
      split <;> omega
    generalize (if other ≥ length then other - length else other) = other' at hother ⊢
    exact (Shuf.swap d (by omega) (by omega) (by omega) (by omega) hlen).trans
      (breakPatterns_loop_spec a length modulus h8 hmod fuel (i + 1) _ _ (by omega)
        (by rw [length_Swap]; exact hlen))

theorem breakPatterns_func_spec (d : List α) (a b : Nat) (hab : a ≤ b) (hb : b ≤ d.length) :
    Shuf a b d (breakPatterns_func d a b) := by
  unfold breakPatterns_func
  simp only []
  by_cases h8 : b - a ≥ 8
  · rw [if_pos h8]
    have hmod : nextPowerOfTwo (b - a) ≤ 2 * (b - a) := by
      unfold nextPowerOfTwo
      rw [Nat.one_shiftLeft]
      exact bits_Len_pow_le (b - a) (by omega)
    have h := breakPatterns_loop_spec (α := α) a (b - a) (nextPowerOfTwo (b - a)) h8 hmod 3 0
      (b - a) d (by omega) (by omega)
    have e : a + (b - a) = b := by omega
    rw [e] at h
    exact h
  · rw [if_neg h8]
    exact Shuf.refl _ _ _

end PdqParts

/-! ## The pattern-defeating quicksort -/

section Pdqsort

variable {α : Type} [Inhabited α] (less : α → α → Bool) (key : α → Int)

omit [Inhabited α] in
theorem not_less_iff (hk : ∀ x y, less x y = true ↔ key x < key y) (x y : α) :
    (!less x y) = true ↔ key y ≤ key x := by
  rw [Bool.not_eq_true', ← Bool.not_eq_true, hk]
  exact not_lt

theorem LowerBound.mono_right {key : α → Int} {d : List α} {a b b' : Nat}
    (h : LowerBound key d a b) (hb : b' ≤ b) : LowerBound key d a b' :=
  fun ha k h1 h2 => h ha k h1 (by omega)

/-- Two sorted parts around a pivot that separates them make a sorted range. -/
theorem SortedOn.glue {key : α → Int} {d : List α} {a mid b : Nat}
    (hl : SortedOn key d a mid) (hr : SortedOn key d (mid + 1) b)
    (hlo : ∀ k, a ≤ k → k < mid → key (At d k) ≤ key (At d mid))
    (hhi : ∀ k, mid < k → k < b → key (At d mid) ≤ key (At d k)) : SortedOn key d a b := by
  intro p q hp hpq hq
  by_cases h1 : q < mid
  · exact hl p q hp hpq h1
  · by_cases h2 : mid < p
    · exact hr p q (by omega) hpq hq
    · by_cases h3 : q = mid
      · by_cases h4 : p = mid
        · rw [h3, h4]
        · rw [h3]
          exact hlo p hp (by omega)
      · by_cases h4 : p = mid
        · rw [h4]
          exact hhi q (by omega) hq
        · have := hlo p hp (by omega)
          have := hhi q (by omega) hq
          omega

theorem pdqsort_func_spec (hk : ∀ x y, less x y = true ↔ key x < key y) :
    ∀ (fuel : Nat) (d : List α) (a b limit : Nat) (wasBalanced wasPartitioned : Bool),
      a ≤ b → b ≤ d.length → b - a < fuel → LowerBound key d a b →
      Shuf a b d (pdqsort_func less fuel d a b limit wasBalanced wasPartitioned) ∧
      SortedOn key (pdqsort_func less fuel d a b limit wasBalanced wasPartitioned) a b
  | 0, d, a, b, limit, wb, wp, hab, hlen, hfuel, hlb => by omega
  | fuel + 1, d, a, b, limit, wb, wp, hab, hlen, hfuel, hlb => by
    unfold pdqsort_func
    simp only []
    by_cases hins : b - a ≤ 12
    · rw [if_pos hins]
      exact insertionSort_func_spec less key hk d a b hlen
    · rw [if_neg hins]
      by_cases hlim : limit = 0
      · rw [if_pos hlim]
        exact heapSort_func_spec less key hk d a b hab hlen
      · rw [if_neg hlim]
        have hab' : a < b := by omega
        -- breaking patterns
        have hs₁ : Shuf a b d (if (!wb) = true then breakPatterns_func d a b else d) := by
          split
          · exact breakPatterns_func_spec d a b hab hlen
          · exact Shuf.refl _ _ _
        generalize (if (!wb) = true then breakPatterns_func d a b else d) = d₁ at hs₁ ⊢
        generalize (if (!wb) = true then limit - 1 else limit) = limit₁
        have hlen₁ : b ≤ d₁.length := by rw [hs₁.length_eq]; exact hlen
        -- the pivot
        have hph := choosePivot_func_bounds less d₁ a b hab'
        generalize choosePivot_func less d₁ a b = ph at hph ⊢
        have hs₂ : Shuf a b d₁
            (if ph.2 = sortedHint.decreasingHint then reverseRange_func d₁ a b else d₁) := by
          split
          · exact reverseRange_func_spec d₁ a b hab' hlen₁
          · exact Shuf.refl _ _ _
        generalize (if ph.2 = sortedHint.decreasingHint then reverseRange_func d₁ a b else d₁)
          = d₂ at hs₂ ⊢
        have hpivot : a ≤ (if ph.2 = sortedHint.decreasingHint then b - 1 - (ph.1 - a) else ph.1) ∧
            (if ph.2 = sortedHint.decreasingHint then b - 1 - (ph.1 - a) else ph.1) < b := by
          split <;> omega
        generalize (if ph.2 = sortedHint.decreasingHint then b - 1 - (ph.1 - a) else ph.1)
          = pivot at hpivot ⊢
        generalize (if ph.2 = sortedHint.decreasingHint then sortedHint.increasingHint else ph.2)
          = hint
        have hlen₂ : b ≤ d₂.length := by rw [hs₂.length_eq]; exact hlen₁
        have hlb₂ : LowerBound key d₂ a b := (hlb.of_Shuf hs₁).of_Shuf hs₂
        -- the partial insertion sort
        have hpis : Shuf a b d₂
              (if (wb && wp && decide (hint = sortedHint.increasingHint)) = true then
                partialInsertionSort_func less d₂ a b else (d₂, false)).1 ∧
            ((if (wb && wp && decide (hint = sortedHint.increasingHint)) = true then
                partialInsertionSort_func less d₂ a b else (d₂, false)).2 = true →
              SortedOn key
                (if (wb && wp && decide (hint = sortedHint.increasingHint)) = true then
                  partialInsertionSort_func less d₂ a b else (d₂, false)).1 a b) := by
          split
          · exact partialInsertionSort_func_spec less key hk d₂ a b hab' hlen₂ hlb₂
          · exact ⟨Shuf.refl _ _ _, fun h => Bool.noConfusion h⟩
        generalize (if (wb && wp && decide (hint = sortedHint.increasingHint)) = true then
          partialInsertionSort_func less d₂ a b else (d₂, false)) = pis at hpis ⊢
        obtain ⟨d₃, sorted⟩ := pis
        simp only [] at hpis ⊢
        obtain ⟨hs₃, hsorted⟩ := hpis
        have hall₃ : Shuf a b d d₃ := (hs₁.trans hs₂).trans hs₃
        have hlen₃ : b ≤ d₃.length := by rw [hall₃.length_eq]; exact hlen
        have hlb₃ : LowerBound key d₃ a b := hlb.of_Shuf hall₃
        by_cases hsd : sorted = true
        · rw [if_pos hsd]
          exact ⟨hall₃, hsorted hsd⟩
        · rw [if_neg hsd]
          by_cases heq : (decide (a > 0) && !less (At d₃ (a - 1)) (At d₃ pivot)) = true
          · rw [if_pos heq]
            simp only [Bool.and_eq_true, decide_eq_true_eq] at heq
            obtain ⟨ha0, hle⟩ := heq
            have hle' : key (At d₃ pivot) ≤ key (At d₃ (a - 1)) :=
              (not_less_iff less key hk _ _).mp hle
            have hpe := partitionEqual_func_spec less key hk d₃ a b pivot hpivot.1 hpivot.2 hlen₃
            generalize partitionEqual_func less d₃ a b pivot = r at hpe ⊢
            obtain ⟨hs₄, hma, hmb, hlo, hhi⟩ := hpe
            have hlen₄ : b ≤ r.1.length := by rw [hs₄.length_eq]; exact hlen₃
            have hlb₄ : LowerBound key r.1 a b := hlb₃.of_Shuf hs₄
            have hge : ∀ k, a ≤ k → k < b → key (At d₃ pivot) ≤ key (At r.1 k) := by
              intro k h1 h2
              have h3 := hlb₄ ha0 k h1 h2
              rw [hs₄.frame (Or.inl (by omega))] at h3
              omega
            have ih := pdqsort_func_spec hk fuel r.1 r.2 b limit₁ wb wp hmb hlen₄ (by omega)
              (by
                intro _ k h1 h2
                have h3 := hlo (r.2 - 1) (by omega) (by omega)
                have h4 := hhi k h1 h2
                omega)
            refine ⟨hall₃.trans (hs₄.trans (ih.1.mono (by omega) (le_refl _))), ?_⟩
            intro p q hp hpq hq
            by_cases hq2 : q < r.2
            · rw [ih.1.frame (Or.inl (by omega)), ih.1.frame (Or.inl hq2)]
              have h3 := hlo p hp (by omega)
              have h4 := hge q (by omega) hq
              omega
            · by_cases hp2 : p < r.2
              · rw [ih.1.frame (Or.inl hp2)]
                have h3 := hlo p hp hp2
                have h4 := ih.1.forall_range (P := fun x => key (At d₃ pivot) < key x)
                  (fun k h1 h2 => hhi k h1 h2) q (by omega) hq
                simp only [] at h4
                omega
              · exact ih.2 p q (by omega) hpq hq
          · rw [if_neg heq]
            have hpf := partition_func_spec less key hk d₃ a b pivot hpivot.1 hpivot.2 hlen₃
            generalize partition_func less d₃ a b pivot = r at hpf ⊢
            obtain ⟨d₄, mid, ap⟩ := r
            simp only [] at hpf ⊢
            obtain ⟨hs₄, hma, hmb, hlo, hhi⟩ := hpf
            have hall₄ : Shuf a b d d₄ := hall₃.trans hs₄
            have hlen₄ : b ≤ d₄.length := by rw [hall₄.length_eq]; exact hlen
            have hlb₄ : LowerBound key d₄ a b := hlb.of_Shuf hall₄
            have hlbR : LowerBound key d₄ (mid + 1) b := by
              intro _ k h1 h2
              simp only [Nat.add_sub_cancel]
              exact hhi k (by omega) h2
            by_cases hside : mid - a < b - mid
            · rw [if_pos hside]
              have ih₁ := pdqsort_func_spec hk fuel d₄ a mid limit₁ true true hma (by omega)
                (by omega) (hlb₄.mono_right (by omega))
              generalize pdqsort_func less fuel d₄ a mid limit₁ true true = d₅ at ih₁ ⊢
              obtain ⟨hs₅, hsort₅⟩ := ih₁
              have hlbR₅ : LowerBound key d₅ (mid + 1) b := by
                intro h0 k h1 h2
                have := hlbR h0 k h1 h2
                simp only [Nat.add_sub_cancel] at this ⊢
                rw [hs₅.frame (Or.inr (le_refl _)), hs₅.frame (Or.inr (by omega))]
                exact this
              have ih₂ := pdqsort_func_spec hk fuel d₅ (mid + 1) b limit₁
                (decide (mid - a ≥ (b - a) / 8)) ap (by omega)
                (by rw [hs₅.length_eq]; exact hlen₄) (by omega) hlbR₅
              generalize pdqsort_func less fuel d₅ (mid + 1) b limit₁
                (decide (mid - a ≥ (b - a) / 8)) ap = d₆ at ih₂ ⊢
              obtain ⟨hs₆, hsort₆⟩ := ih₂
              have hmid : At d₆ mid = At d₄ mid := by
                rw [hs₆.frame (Or.inl (by omega)), hs₅.frame (Or.inr (le_refl _))]
              refine ⟨hall₄.trans ((hs₅.mono (le_refl _) (by omega)).trans
                (hs₆.mono (by omega) (le_refl _))), ?_⟩
              refine SortedOn.glue ?_ hsort₆ ?_ ?_
              · intro p q hp hpq hq
                rw [hs₆.frame (Or.inl (by omega)), hs₆.frame (Or.inl (by omega))]
                exact hsort₅ p q hp hpq hq
              · intro k h1 h2
                rw [hmid, hs₆.frame (Or.inl (by omega))]
                exact le_of_lt (hs₅.forall_range (P := fun x => key x < key (At d₄ mid))
                  (fun k h1 h2 => hlo k h1 h2) k h1 h2)
              · intro k h1 h2
                rw [hmid]
                refine hs₆.forall_range (P := fun x => key (At d₄ mid) ≤ key x) ?_ k (by omega) h2
                intro k' h1' h2'
                rw [hs₅.frame (Or.inr (by omega))]
                exact hhi k' (by omega) h2'
            · rw [if_neg hside]
              have ih₁ := pdqsort_func_spec hk fuel d₄ (mid + 1) b limit₁ true true (by omega)
                hlen₄ (by omega) hlbR
              generalize pdqsort_func less fuel d₄ (mid + 1) b limit₁ true true = d₅ at ih₁ ⊢
              obtain ⟨hs₅, hsort₅⟩ := ih₁
              have hlbL₅ : LowerBound key d₅ a mid := by
                intro h0 k h1 h2
                rw [hs₅.frame (Or.inl (by omega)), hs₅.frame (Or.inl (by omega))]
                exact hlb₄ h0 k h1 (by omega)
              have ih₂ := pdqsort_func_spec hk fuel d₅ a mid limit₁
                (decide (b - mid ≥ (b - a) / 8)) ap hma
                (by rw [hs₅.length_eq]; omega) (by omega) hlbL₅
              generalize pdqsort_func less fuel d₅ a mid limit₁
                (decide (b - mid ≥ (b - a) / 8)) ap = d₆ at ih₂ ⊢
              obtain ⟨hs₆, hsort₆⟩ := ih₂
              have hmid : At d₆ mid = At d₄ mid := by
                rw [hs₆.frame (Or.inr (le_refl _)), hs₅.frame (Or.inl (by omega))]
              refine ⟨hall₄.trans ((hs₅.mono (by omega) (le_refl _)).trans
                (hs₆.mono (le_refl _) (by omega))), ?_⟩
              refine SortedOn.glue hsort₆ ?_ ?_ ?_
              · intro p q hp hpq hq
                rw [hs₆.frame (Or.inr (by omega)), hs₆.frame (Or.inr (by omega))]
                exact hsort₅ p q hp hpq hq
              · intro k h1 h2
                rw [hmid]
                refine le_of_lt (hs₆.forall_range (P := fun x => key x < key (At d₄ mid)) ?_
                  k h1 h2)
                intro k' h1' h2'
                rw [hs₅.frame (Or.inl (by omega))]
                exact hlo k' h1' h2'
              · intro k h1 h2
                rw [hmid, hs₆.frame (Or.inr (by omega))]
                exact hs₅.forall_range (P := fun x => key (At d₄ mid) ≤ key x)
                  (fun k h1 h2 => hhi k (by omega) h2) k (by omega) h2

/-- `sort.Slice` returns a rearrangement of its argument whose keys are in non-decreasing
order, for every comparison that is the strict order of an integer key. -/
theorem sort_Slice_spec (hk : ∀ x y, less x y = true ↔ key x < key y) (x : List α) :
    (sort_Slice x less).Perm x ∧ (sort_Slice x less).length = x.length ∧
    SortedOn key (sort_Slice x less) 0 x.length := by
  unfold sort_Slice
  simp only []
  have h := pdqsort_func_spec less key hk (x.length + 1) x 0 x.length (bits_Len x.length)
    true true (Nat.zero_le _) (le_refl _) (by omega) (fun h => by omega)
  exact ⟨h.1.perm, h.1.length_eq, h.2⟩

end Pdqsort

/-! ## Selection -/

theorem lookupPod_of_none (L : String) (pods : List Pod) (h : ∀ q ∈ pods, q.Name ≠ L) :
    lookupPod L pods = [] := by
  induction pods with
  | nil => rfl
  | cons p ps ih =>
    have hp : p.Name ≠ L := h p (List.mem_cons_self _ _)
    simp only [lookupPod, if_neg hp]
    exact ih (fun q hq => h q (List.mem_cons_of_mem _ hq))

theorem lookupPod_first (L : String) (pre : List Pod) (p : Pod) (post : List Pod)
    (hp : p.Name = L) (hpre : ∀ q ∈ pre, q.Name ≠ L) :
    lookupPod L (pre ++ p :: post) = [p] := by
  induction pre with
  | nil => simp [lookupPod, hp]
  | cons x xs ih =>
    have hx : x.Name ≠ L := hpre x (List.mem_cons_self _ _)
    simp only [List.cons_append, lookupPod, if_neg hx]
    exact ih (fun q hq => hpre q (List.mem_cons_of_mem _ hq))

theorem exists_first_named (L : String) (pods : List Pod) (h : ∃ q ∈ pods, q.Name = L) :
    ∃ pre p post, pods = pre ++ p :: post ∧ p.Name = L ∧ ∀ q ∈ pre, q.Name ≠ L := by
  induction pods with
  | nil => simp at h
  | cons x xs ih =>
    by_cases hx : x.Name = L
    · exact ⟨[], x, xs, rfl, hx, by simp⟩
    · obtain ⟨q, hq, hqL⟩ := h
      have hq' : q ∈ xs := by
        rcases List.mem_cons.mp hq with h1 | h1
        · exact absurd (h1 ▸ hqL) hx
        · exact h1
      obtain ⟨pre, p, post, hsplit, hpL, hpre⟩ := ih ⟨q, hq', hqL⟩
      refine ⟨x :: pre, p, post, by simp [hsplit], hpL, ?_⟩
      intro r hr
      rcases List.mem_cons.mp hr with h1 | h1
      · exact h1 ▸ hx
      · exact hpre r h1

/-- C1: when the prompt succeeds with the label "All", `selectPod` succeeds and returns the
candidate sequence itself: same elements, same order, same length. -/
theorem selectPod_all (askOne : List String → Except String String) (pods : List Pod)
    (_ : pods ≠ []) (hprompt : askOne (podsNames pods) = .ok "All") :
    selectPod askOne pods = .ok pods := by
  simp [selectPod, hprompt]

theorem selectPod_all_witness :
    ([⟨"web-1", "default", 5⟩, ⟨"web-2", "default", 3⟩] : List Pod) ≠ [] ∧
    selectPod (fun _ => .ok "All") [⟨"web-1", "default", 5⟩, ⟨"web-2", "default", 3⟩]
      = .ok [⟨"web-1", "default", 5⟩, ⟨"web-2", "default", 3⟩] :=
  ⟨by simp, selectPod_all (fun _ => .ok "All") _ (by simp) rfl⟩

/-- C2: when the prompt succeeds with a label `L` other than "All", `selectPod` succeeds; if a
pod is named `L` it returns the one-element sequence holding the first such pod in input order
(whose name is `L`), and if no pod is named `L` it returns the empty sequence. -/
theorem selectPod_named (askOne : List String → Except String String) (pods : List Pod)
    (L : String) (hL : L ≠ "All") (hprompt : askOne (podsNames pods) = .ok L) :
    ((∃ q ∈ pods, q.Name = L) →
        ∃ pre p post, pods = pre ++ p :: post ∧ p.Name = L ∧ (∀ q ∈ pre, q.Name ≠ L) ∧
          selectPod askOne pods = .ok [p]) ∧
    ((∀ q ∈ pods, q.Name ≠ L) → selectPod askOne pods = .ok []) := by
  have hsel : selectPod askOne pods = .ok (lookupPod L pods) := by
    simp [selectPod, hprompt, hL]
  constructor
  · intro hex
    obtain ⟨pre, p, post, hsplit, hpL, hpre⟩ := exists_first_named L pods hex
    refine ⟨pre, p, post, hsplit, hpL, hpre, ?_⟩
    rw [hsel, hsplit, lookupPod_first L pre p post hpL hpre]
  · intro hnone
    rw [hsel, lookupPod_of_none L pods hnone]

theorem selectPod_named_witness :
    ((∃ q ∈ ([⟨"a", "ns", 1⟩, ⟨"b", "ns", 2⟩, ⟨"b", "ns", 3⟩] : List Pod), q.Name = "b") →
        ∃ pre p post, ([⟨"a", "ns", 1⟩, ⟨"b", "ns", 2⟩, ⟨"b", "ns", 3⟩] : List Pod)
            = pre ++ p :: post ∧ p.Name = "b" ∧ (∀ q ∈ pre, q.Name ≠ "b") ∧
          selectPod (fun _ => .ok "b") [⟨"a", "ns", 1⟩, ⟨"b", "ns", 2⟩, ⟨"b", "ns", 3⟩]
            = .ok [p]) ∧
    ((∀ q ∈ ([⟨"a", "ns", 1⟩, ⟨"b", "ns", 2⟩, ⟨"b", "ns", 3⟩] : List Pod), q.Name ≠ "b") →
        selectPod (fun _ => .ok "b") [⟨"a", "ns", 1⟩, ⟨"b", "ns", 2⟩, ⟨"b", "ns", 3⟩]
          = .ok []) :=
  selectPod_named (fun _ => .ok "b") _ "b" (by decide) rfl

/-- C10: when the candidate sequence is not empty and the prompt returns one of the labels it
was offered ("All" or a candidate's name), `selectPod` returns a non-empty sequence. -/
theorem selectPod_offered_nonempty (askOne : List String → Except String String)
    (pods : List Pod) (L : String) (hne : pods ≠ []) (hmem : L ∈ podsNames pods)
    (hprompt : askOne (podsNames pods) = .ok L) :
    ∃ r, selectPod askOne pods = .ok r ∧ r ≠ [] := by
  by_cases hL : L = "All"
  · exact ⟨pods, by simp [selectPod, hprompt, hL], hne⟩
  · have hex : ∃ q ∈ pods, q.Name = L := by
      simp only [podsNames, List.singleton_append, List.mem_cons, List.mem_map] at hmem
      rcases hmem with h | h
      · exact absurd h hL
      · exact h
    obtain ⟨pre, p, post, hsplit, hpL, hpre⟩ := exists_first_named L pods hex
    refine ⟨[p], ?_, by simp⟩
    have hsel : selectPod askOne pods = .ok (lookupPod L pods) := by
      simp [selectPod, hprompt, hL]
    rw [hsel, hsplit, lookupPod_first L pre p post hpL hpre]

theorem selectPod_offered_nonempty_witness :
    ∃ r, selectPod (fun _ => .ok "b") [⟨"a", "ns", 1⟩, ⟨"b", "ns", 2⟩] = .ok r ∧ r ≠ [] :=
  selectPod_offered_nonempty (fun _ => .ok "b") [⟨"a", "ns", 1⟩, ⟨"b", "ns", 2⟩] "b"
    (by simp) (by decide) rfl

/-! ## Failures of `filterPods` -/

theorem startsWith_self (t : List Char) : startsWith t t = true := by
  induction t with
  | nil => rfl
  | cons c t ih => simp [startsWith, ih]

theorem containsAt_append_self (pre t : List Char) : containsAt (pre ++ t) t = true := by
  induction pre with
  | nil =>
    cases t with
    | nil => rfl
    | cons c t => simp [containsAt, startsWith_self]
  | cons c pre ih => simp [containsAt, ih]

theorem strings_Contains_append_self (pre t : String) : strings_Contains (pre ++ t) t = true := by
  simp [strings_Contains, String.data_append, containsAt_append_self]

theorem matchingPods_eq_nil (filter : String) (items : List Pod)
    (h : ∀ p ∈ items, strings_Contains p.Name filter = false) : matchingPods filter items = [] := by
  induction items with
  | nil => rfl
  | cons p ps ih =>
    have hp : strings_Contains p.Name filter = false := h p (List.mem_cons_self _ _)
    simp only [matchingPods, hp]
    exact ih (fun q hq => h q (List.mem_cons_of_mem _ hq))

theorem emptyScope_ne_noMatch (t : String) :
    "no pods was found in current namespace" ≠ "no pods was found with filter:  " ++ t := by
  intro h
  have h1 := congrArg String.data h
  rw [String.data_append] at h1
  have h2 := congrArg (fun l => l.getD 18 ' ') h1
  revert h2
  simp [List.getD]

/-- C6: when the listing succeeds with at least one pod and no listed pod's name contains the
filter term `t`, `filterPods` fails (so it returns no pods) with the no-match error, whose
message contains `t` verbatim as a substring. -/
theorem filterPods_noMatch (listPods : String → Except String (List Pod)) (ns t : String)
    (items : List Pod) (hlist : listPods ns = .ok items) (hne : items ≠ [])
    (hno : ∀ p ∈ items, strings_Contains p.Name t = false) :
    ∃ msg, filterPods listPods ns t = .error msg ∧
      msg = "no pods was found with filter:  " ++ t ∧ strings_Contains msg t = true := by
  refine ⟨"no pods was found with filter:  " ++ t, ?_, rfl, strings_Contains_append_self _ _⟩
  have hlen : items.length ≠ 0 := by
    intro h0
    exact hne (List.length_eq_zero.mp h0)
  simp [filterPods, hlist, hlen, matchingPods_eq_nil t items hno]

theorem filterPods_noMatch_witness :
    ∃ msg, filterPods (fun _ => .ok [⟨"web-1", "default", 5⟩, ⟨"db-0", "default", 3⟩])
        "default" "zzz" = .error msg ∧
      msg = "no pods was found with filter:  " ++ "zzz" ∧ strings_Contains msg "zzz" = true :=
  filterPods_noMatch (fun _ => .ok [⟨"web-1", "default", 5⟩, ⟨"db-0", "default", 3⟩])
    "default" "zzz" [⟨"web-1", "default", 5⟩, ⟨"db-0", "default", 3⟩] rfl (by simp)
    (by decide)

/-- C7: when the listing call succeeds with zero pods, `filterPods` fails with the empty-scope
error whatever the filter term is, and that error is not the no-match error. -/
theorem filterPods_emptyScope (listPods : String → Except String (List Pod)) (ns t : String)
    (hlist : listPods ns = .ok []) :
    filterPods listPods ns t = .error "no pods was found in current namespace" ∧
    filterPods listPods ns t ≠ .error ("no pods was found with filter:  " ++ t) := by
  have h : filterPods listPods ns t = .error "no pods was found in current namespace" := by
    simp [filterPods, hlist]
  refine ⟨h, ?_⟩
  rw [h]
  intro hc
  exact emptyScope_ne_noMatch t (Except.error.inj hc)

theorem filterPods_emptyScope_witness :
    filterPods (fun _ => .ok []) "default" "web"
      = .error "no pods was found in current namespace" ∧
    filterPods (fun _ => .ok []) "default" "web"
      ≠ .error ("no pods was found with filter:  " ++ "web") :=
  filterPods_emptyScope (fun _ => .ok []) "default" "web" rfl

/-! ## Argument checks of `Complete` -/

/-- C8 does not hold for an empty first argument: the usage error of `Complete` comes first
only when no argument is given, and with the argument list `[""]` and a kubeconfig that cannot
be loaded the loader's error is returned instead of "pod filter is required". -/
theorem Complete_empty_filter_config_error :
    (Complete brokenConfig (NewIlogsOptions Unit) [""]).1 = .error "invalid configuration" ∧
    (Complete brokenConfig (NewIlogsOptions Unit) [""]).1 ≠ .error "pod filter is required" := by
  constructor
  · rfl
  · intro h
    have h1 : (Except.error "invalid configuration" : Except String Unit)
        = .error "pod filter is required" := h
    exact absurd (Except.error.inj h1) (by decide)

/-- With no positional argument `Complete` fails with the usage error whatever the
collaborators do; with an empty first argument it fails with the usage error whenever the
kubeconfig loads and the client is built. -/
theorem Complete_usage_error {Config Client : Type} (k : Collaborators Config Client)
    (o : IlogsOptions Client) (args : List String) :
    (args = [] → (Complete k o args).1 = .error "pod filter is required") ∧
    (args.head? = some "" → (∃ cfg c, k.ToRESTConfig = .ok cfg ∧ k.NewForConfig cfg = .ok c) →
      (Complete k o args).1 = .error "pod filter is required") := by
  constructor
  · intro h
    simp [Complete, h]
  · intro h hcfg
    obtain ⟨cfg, c, h1, h2⟩ := hcfg
    cases args with
    | nil => simp at h
    | cons a rest =>
      simp only [List.head?_cons, Option.some.injEq] at h
      simp [Complete, h1, h2, h]

theorem Complete_usage_error_witness :
    (([""] : List String) = [] →
      (Complete emptyCluster (NewIlogsOptions Unit) [""]).1 = .error "pod filter is required") ∧
    (([""] : List String).head? = some "" →
      (∃ cfg c, emptyCluster.ToRESTConfig = .ok cfg ∧ emptyCluster.NewForConfig cfg = .ok c) →
      (Complete emptyCluster (NewIlogsOptions Unit) [""]).1 = .error "pod filter is required") :=
  Complete_usage_error emptyCluster (NewIlogsOptions Unit) [""]

/-- C9: when the filter term is absent or empty, `Complete` fails, its whole result (error and
options) is the same whatever the pod-listing call and the prompt would do, and `selectedPods`
keeps the value it had. -/
theorem Complete_no_filter_no_listing {Config Client : Type} (k : Collaborators Config Client)
    (o : IlogsOptions Client) (args : List String) (hargs : args = [] ∨ args.head? = some "")
    (listPods : Client → String → Except String (List Pod))
    (askOne : List String → Except String String) :
    (∃ err, (Complete k o args).1 = .error err) ∧
    Complete { k with ListPods := listPods, AskOne := askOne } o args = Complete k o args ∧
    (Complete k o args).2.selectedPods = o.selectedPods := by
  rcases hargs with h | h
  · subst h
    simp [Complete]
  · cases args with
    | nil => simp at h
    | cons a rest =>
      simp only [List.head?_cons, Option.some.injEq] at h
      subst h
      cases h1 : k.ToRESTConfig with
      | error e => simp [Complete, h1]
      | ok cfg =>
        cases h2 : k.NewForConfig cfg with
        | error e => simp [Complete, h1, h2]
        | ok c => simp [Complete, h1, h2]

theorem Complete_no_filter_no_listing_witness :
    (∃ err, (Complete emptyCluster (NewIlogsOptions Unit) [""]).1 = .error err) ∧
    Complete { emptyCluster with ListPods := fun _ _ => .error "unreachable",
                                 AskOne := fun _ => .error "interrupt" }
        (NewIlogsOptions Unit) [""]
      = Complete emptyCluster (NewIlogsOptions Unit) [""] ∧
    (Complete emptyCluster (NewIlogsOptions Unit) [""]).2.selectedPods
      = (NewIlogsOptions Unit).selectedPods :=
  Complete_no_filter_no_listing emptyCluster (NewIlogsOptions Unit) [""] (Or.inr rfl)
    (fun _ _ => .error "unreachable") (fun _ => .error "interrupt")

/-! ## The candidate list of `filterPods` -/

theorem startsWith_iff : ∀ (s p : List Char), startsWith s p = true ↔ p <+: s
  | _, [] => by simp [startsWith]
  | [], _ :: _ => by simp [startsWith]
  | c :: s, x :: p => by
    simp only [startsWith, Bool.and_eq_true, beq_iff_eq, startsWith_iff s p]
    constructor
    · rintro ⟨rfl, h⟩
      exact (List.prefix_cons_inj c).mpr h
    · intro h
      have h1 := List.cons_prefix_cons.mp h
      exact ⟨h1.1.symm, h1.2⟩

/-- The embedding of `strings.Contains` decides the substring relation. -/
theorem containsAt_iff : ∀ (s sub : List Char), containsAt s sub = true ↔ sub <:+: s
  | [], sub => by
    simp only [containsAt, startsWith_iff, List.prefix_nil, List.infix_nil]
  | c :: s, sub => by
    simp only [containsAt, Bool.or_eq_true, startsWith_iff, containsAt_iff s sub]
    exact List.infix_cons_iff.symm

theorem strings_Contains_iff (s substr : String) :
    strings_Contains s substr = true ↔ substr.data <:+: s.data :=
  containsAt_iff s.data substr.data

theorem matchingPods_eq_filter (filter : String) (items : List Pod) :
    matchingPods filter items = items.filter (fun pod => strings_Contains pod.Name filter) := by
  induction items with
  | nil => rfl
  | cons p ps ih =>
    by_cases h : strings_Contains p.Name filter = true
    · simp [matchingPods, h, ih]
    · simp [matchingPods, h, ih]

theorem podLess_iff (x y : Pod) :
    podLess x y = true ↔ -x.CreationTimestamp < -y.CreationTimestamp := by
  simp [podLess, Time_After]

/-- What a successful `filterPods` returns: the sorted matches of a non-empty listing. -/
theorem filterPods_ok (listPods : String → Except String (List Pod)) (ns t : String)
    (pods : List Pod) (h : filterPods listPods ns t = .ok pods) :
    ∃ items, listPods ns = .ok items ∧ pods = sort_Slice (matchingPods t items) podLess := by
  unfold filterPods at h
  cases hl : listPods ns with
  | error e =>
    rw [hl] at h
    cases h
  | ok items =>
    rw [hl] at h
    simp only [] at h
    by_cases h1 : items.length = 0
    · rw [if_pos h1] at h
      cases h
    · rw [if_neg h1] at h
      by_cases h2 : (matchingPods t items).length = 0
      · rw [if_pos h2] at h
        cases h
      · rw [if_neg h2] at h
        exact ⟨items, rfl, (Except.ok.inj h).symm⟩

theorem SortedOn.pairwise {α : Type} [Inhabited α] {key : α → Int} {d : List α}
    (h : SortedOn key d 0 d.length) : d.Pairwise (fun x y => key x ≤ key y) := by
  rw [List.pairwise_iff_getElem]
  intro i j hi hj hij
  have := h i j (Nat.zero_le _) (le_of_lt hij) hj
  rwa [At_eq_getElem d i hi, At_eq_getElem d j hj] at this

/-- `sort.Slice` on at most twelve elements is the insertion sort. -/
theorem sort_Slice_short {α : Type} [Inhabited α] (x : List α) (less : α → α → Bool)
    (h : x.length ≤ 12) : sort_Slice x less = insertionSort_func less x 0 x.length := by
  unfold sort_Slice
  simp only []
  unfold pdqsort_func
  simp only [Nat.sub_zero]
  rw [if_pos h]

theorem SameOrderByKey.neg {α : Type} {key : α → Int} {d d' : List α}
    (h : SameOrderByKey (fun x => -key x) d d') : SameOrderByKey key d d' := by
  intro t
  have e : (fun x => decide (key x = t)) = fun x => decide ((fun x => -key x) x = -t) := by
    funext x
    simp
  rw [e]
  exact h (-t)

/-- C3: when `filterPods` succeeds, what it returns is a rearrangement of the listed pods
whose name contains the filter term, each exactly as often as it is listed, so every returned
pod's name contains the term as a substring. -/
theorem filterPods_perm_matches (listPods : String → Except String (List Pod)) (ns t : String)
    (pods : List Pod) (h : filterPods listPods ns t = .ok pods) :
    ∃ items, listPods ns = .ok items ∧
      pods.Perm (items.filter (fun pod => strings_Contains pod.Name t)) ∧
      ∀ pod ∈ pods, t.data <:+: pod.Name.data := by
  obtain ⟨items, hl, hp⟩ := filterPods_ok listPods ns t pods h
  have hs := sort_Slice_spec podLess (fun p => -p.CreationTimestamp) podLess_iff
    (matchingPods t items)
  rw [← hp, matchingPods_eq_filter] at hs
  refine ⟨items, hl, hs.1, ?_⟩
  intro pod hpod
  have hmem := (hs.1.mem_iff).mp hpod
  rw [List.mem_filter] at hmem
  exact (strings_Contains_iff _ _).mp hmem.2

theorem filterPods_perm_matches_witness :
    ∃ items, (fun _ => Except.ok [⟨"A", "default", 1⟩, ⟨"B", "default", 2⟩,
        ⟨"AB", "default", 3⟩] : String → Except String (List Pod)) "default" = .ok items ∧
      ([⟨"AB", "default", 3⟩, ⟨"A", "default", 1⟩] : List Pod).Perm
        (items.filter (fun pod => strings_Contains pod.Name "A")) ∧
      ∀ pod ∈ ([⟨"AB", "default", 3⟩, ⟨"A", "default", 1⟩] : List Pod),
        "A".data <:+: pod.Name.data :=
  filterPods_perm_matches
    (fun _ => .ok [⟨"A", "default", 1⟩, ⟨"B", "default", 2⟩, ⟨"AB", "default", 3⟩])
    "default" "A" [⟨"AB", "default", 3⟩, ⟨"A", "default", 1⟩] rfl

/-- C4: when the listed pods have pairwise distinct creation timestamps and `filterPods`
succeeds, every returned pod was created strictly after all the pods that follow it. -/
theorem filterPods_strictly_descending (listPods : String → Except String (List Pod))
    (ns t : String) (items pods : List Pod) (hl : listPods ns = .ok items)
    (hdist : items.Pairwise (fun p q => p.CreationTimestamp ≠ q.CreationTimestamp))
    (h : filterPods listPods ns t = .ok pods) :
    pods.Pairwise (fun p q => q.CreationTimestamp < p.CreationTimestamp) := by
  obtain ⟨items', hl', hp⟩ := filterPods_ok listPods ns t pods h
  rw [hl] at hl'
  have hitems : items' = items := (Except.ok.inj hl').symm
  subst hitems
  have hs := sort_Slice_spec podLess (fun p => -p.CreationTimestamp) podLess_iff
    (matchingPods t items')
  rw [← hp] at hs
  obtain ⟨hperm, hlen, hsorted⟩ := hs
  rw [← hlen] at hsorted
  have hle := hsorted.pairwise
  have hsub : (matchingPods t items').Sublist items' := by
    rw [matchingPods_eq_filter]
    exact List.filter_sublist _
  have hne : pods.Pairwise (fun p q => p.CreationTimestamp ≠ q.CreationTimestamp) :=
    (hperm.pairwise_iff (fun hxy => Ne.symm hxy)).mpr (hdist.sublist hsub)
  refine (hle.and hne).imp ?_
  intro p q hpq
  have h1 := hpq.1
  have h2 := hpq.2
  simp only [] at h1
  omega

theorem filterPods_strictly_descending_witness :
    ([⟨"AB", "default", 3⟩, ⟨"A", "default", 1⟩] : List Pod).Pairwise
      (fun p q => q.CreationTimestamp < p.CreationTimestamp) :=
  filterPods_strictly_descending
    (fun _ => .ok [⟨"A", "default", 1⟩, ⟨"B", "default", 2⟩, ⟨"AB", "default", 3⟩])
    "default" "A" [⟨"A", "default", 1⟩, ⟨"B", "default", 2⟩, ⟨"AB", "default", 3⟩]
    [⟨"AB", "default", 3⟩, ⟨"A", "default", 1⟩] rfl (by decide) rfl

/-- The claim C5 fails on thirteen matching pods: `filterPods` succeeds on `tiedListing` with
`tiedResult`, in which the pods created at instant 2 are not in their listing order ("web-6"
stands before "web-1"). -/
theorem filterPods_ties_reordered :
    filterPods (fun _ => .ok tiedListing) "default" "web" = .ok tiedResult ∧
    tiedResult.filter (fun p => decide (p.CreationTimestamp = 2))
      ≠ (tiedListing.filter (fun pod => strings_Contains pod.Name "web")).filter
          (fun p => decide (p.CreationTimestamp = 2)) := by
  constructor
  · rfl
  · decide

/-- C5, amended: when `filterPods` succeeds and at most twelve listed pods match the filter,
the returned pods of each creation timestamp stand in the order in which they were listed. -/
theorem filterPods_stable_upto_twelve (listPods : String → Except String (List Pod))
    (ns t : String) (items pods : List Pod) (hl : listPods ns = .ok items)
    (hshort : (items.filter (fun pod => strings_Contains pod.Name t)).length ≤ 12)
    (h : filterPods listPods ns t = .ok pods) (τ : Int) :
    pods.filter (fun p => decide (p.CreationTimestamp = τ))
      = (items.filter (fun pod => strings_Contains pod.Name t)).filter
          (fun p => decide (p.CreationTimestamp = τ)) := by
  obtain ⟨items', hl', hp⟩ := filterPods_ok listPods ns t pods h
  rw [hl] at hl'
  have hitems : items' = items := (Except.ok.inj hl').symm
  subst hitems
  rw [← matchingPods_eq_filter] at hshort ⊢
  rw [hp, sort_Slice_short _ _ hshort]
  have hst := insertionSort_func_sameOrder podLess (fun p => -p.CreationTimestamp) podLess_iff
    (matchingPods t items') 0 (matchingPods t items').length (le_refl _)
  exact hst.neg τ

theorem filterPods_stable_upto_twelve_witness :
    ([⟨"A", "default", 1⟩, ⟨"AB", "default", 1⟩, ⟨"AA", "default", 1⟩] : List Pod).filter
        (fun p => decide (p.CreationTimestamp = 1))
      = (([⟨"A", "default", 1⟩, ⟨"B", "default", 2⟩, ⟨"AB", "default", 1⟩,
            ⟨"AA", "default", 1⟩] : List Pod).filter
          (fun pod => strings_Contains pod.Name "A")).filter
          (fun p => decide (p.CreationTimestamp = 1)) :=
  filterPods_stable_upto_twelve
    (fun _ => .ok [⟨"A", "default", 1⟩, ⟨"B", "default", 2⟩, ⟨"AB", "default", 1⟩,
      ⟨"AA", "default", 1⟩])
    "default" "A"
    [⟨"A", "default", 1⟩, ⟨"B", "default", 2⟩, ⟨"AB", "default", 1⟩, ⟨"AA", "default", 1⟩]
    [⟨"A", "default", 1⟩, ⟨"AB", "default", 1⟩, ⟨"AA", "default", 1⟩] rfl (by decide) rfl 1

end Ilogs
